import Mathlib

/-!
# The OBJ line scanner of `obj/scanner_line.go`

A shallow embedding of `scanLine` (logical-line reader, classifier/tokenizer
and the coordinate-reference decoder) together with the parts of the Go
standard library it calls, followed by theorems about it.

Conventions of the embedding:

* a Go `string` is modelled by the sequence of runes Go decodes from it
  (`GoString = List Char`); the input text is taken to be valid UTF-8, so
  that byte-level operations with ASCII patterns (`HasPrefix "#"`,
  `HasSuffix "\\"`, `Split "/"`, the regexp `[\s]+`) coincide with their
  rune-level versions;
* a Go slice that may be `nil` is an `Option (List _)`, `none` being `nil`;
* a method with a pointer receiver returns the updated receiver;
* a run-time panic (index or slice bound out of range) is `none`;
* a Go `error` result is an `Option GoError`, `none` being `nil`;
* Go `int` is 64 bits wide (`strconv.IntSize`); it only matters for the
  range check of `strconv.Atoi`.
-/

namespace obj

/-- Go strings, as rune sequences. -/
abbrev GoString := List Char

/-- The two causes of a `strconv.NumError`: `ErrSyntax` and `ErrRange`. -/
inductive NumErrKind
  | errSyntax
  | errRange
  deriving DecidableEq

/-- Go error values met by the scanner: a `*strconv.NumError` with its fields
`Num` (the text that failed to parse) and `Err` (the field `Func`, a function
name that differs between Go releases, is left out), or an error reported by
the underlying reader or by `bufio.Scanner` itself, identified by a code. -/
inductive GoError
  | numError (num : GoString) (err : NumErrKind)
  | readError (code : Nat)
  deriving DecidableEq

/-! ## Standard library: `unicode`, `strings` -/

/-- Go `unicode.IsSpace`: the Unicode White_Space property. -/
def unicode.IsSpace (r : Char) : Bool :=
  let u := r.toNat
  (decide (0x09 ≤ u) && decide (u ≤ 0x0D)) || u == 0x20 || u == 0x85 || u == 0xA0 ||
    u == 0x1680 || (decide (0x2000 ≤ u) && decide (u ≤ 0x200A)) || u == 0x2028 ||
    u == 0x2029 || u == 0x202F || u == 0x205F || u == 0x3000

/-- Go `strings.TrimSpace`: `TrimRightFunc (TrimLeftFunc s IsSpace) IsSpace`. -/
def strings.TrimSpace (s : GoString) : GoString :=
  (s.dropWhile unicode.IsSpace).rdropWhile unicode.IsSpace

/-- Go `strings.HasPrefix`. -/
def strings.HasPrefix (s pre : GoString) : Bool :=
  decide (s.length ≥ pre.length) && (s.take pre.length == pre)

/-- Go `strings.HasSuffix`. -/
def strings.HasSuffix (s suf : GoString) : Bool :=
  decide (s.length ≥ suf.length) && (s.drop (s.length - suf.length) == suf)

/-- Go `strings.TrimPrefix`. -/
def strings.TrimPrefix (s pre : GoString) : GoString :=
  if strings.HasPrefix s pre then s.drop pre.length else s

/-- Go `strings.TrimSuffix`. -/
def strings.TrimSuffix (s suf : GoString) : GoString :=
  if strings.HasSuffix s suf then s.take (s.length - suf.length) else s

/-- Go `strings.Split s sep` for a separator `sep` of one ASCII character:
the pieces between the occurrences of `sep`, one more than the occurrences. -/
def strings.Split (s : GoString) (sep : Char) : List GoString :=
  match s with
  | [] => [[]]
  | c :: cs =>
    if c = sep then [] :: strings.Split cs sep
    else
      match strings.Split cs sep with
      | [] => [[c]]
      | p :: ps => (c :: p) :: ps

/-! ## Standard library: `regexp`, for the expression `[\s]+` -/

/-- The Perl class `\s` of Go `regexp/syntax`: `[\t\n\f\r ]`. -/
def perlSpace (r : Char) : Bool :=
  let u := r.toNat
  u == 0x09 || u == 0x0A || u == 0x0C || u == 0x0D || u == 0x20

/-- The matches of `[\s]+` in the text that starts at offset `pos`, as
`(start, end)` offset pairs: leftmost, non-overlapping, each a maximal run.
`cur` is the start of the run being read, if any. -/
def segmentRegex.findFrom : Nat → Option Nat → GoString → List (Nat × Nat)
  | _, none, [] => []
  | pos, some st, [] => [(st, pos)]
  | pos, none, c :: cs =>
    if perlSpace c then segmentRegex.findFrom (pos + 1) (some pos) cs
    else segmentRegex.findFrom (pos + 1) none cs
  | pos, some st, c :: cs =>
    if perlSpace c then segmentRegex.findFrom (pos + 1) (some st) cs
    else (st, pos) :: segmentRegex.findFrom (pos + 1) none cs

/-- Go `segmentRegex.FindAllStringIndex s (-1)`. -/
def segmentRegex.FindAllStringIndex (s : GoString) : List (Nat × Nat) :=
  segmentRegex.findFrom 0 none s

/-- Go slice expression `s[b:e]`. -/
def slice (s : GoString) (b e : Nat) : GoString := (s.take e).drop b

/-- The loop of Go `Regexp.Split` over the matches, for `n < 0`; the state is
`(strings, beg, end)`. -/
def segmentRegex.splitLoop (s : GoString) :
    List (Nat × Nat) → List GoString × Nat × Nat → List GoString × Nat × Nat
  | [], st => st
  | m :: ms, (strs, beg, _) =>
    let e := m.1
    let strs := if m.2 ≠ 0 then strs ++ [slice s beg e] else strs
    segmentRegex.splitLoop s ms (strs, m.2, e)

/-- Go `segmentRegex.Split s (-1)` where `segmentRegex` is `[\s]+`. -/
def segmentRegex.Split (s : GoString) : List GoString :=
  if s.length = 0 then [[]]
  else
    let r := segmentRegex.splitLoop s (segmentRegex.FindAllStringIndex s) ([], 0, 0)
    if r.2.2 ≠ s.length then r.1 ++ [s.drop r.2.1] else r.1

/-! ## Standard library: `strconv.Atoi` -/

/-- Width of Go `int`. -/
def strconv.IntSize : Nat := 64

/-- The loop of `strconv.ParseUint s 10 64` with `n` the value read so far:
a character that is no decimal digit is a syntax error, an overflow of the
64-bit accumulator a range error, whichever comes first. -/
def strconv.parseUintLoop : GoString → Nat → Except NumErrKind Nat
  | [], n => .ok n
  | c :: cs, n =>
    if decide (48 ≤ c.toNat) && decide (c.toNat ≤ 57) then
      if n ≥ (2 ^ 64 - 1) / 10 + 1 then .error .errRange
      else
        let n1 := n * 10 + (c.toNat - 48)
        if n1 > 2 ^ 64 - 1 then .error .errRange
        else strconv.parseUintLoop cs n1
    else .error .errSyntax

/-- Go `strconv.ParseUint s 10 64`, value and error cause. -/
def strconv.ParseUint (s : GoString) : Nat × Option NumErrKind :=
  match s with
  | [] => (0, some .errSyntax)
  | _ =>
    match strconv.parseUintLoop s 0 with
    | .ok n => (n, none)
    | .error .errRange => (2 ^ 64 - 1, some .errRange)
    | .error .errSyntax => (0, some .errSyntax)

/-- Go `strconv.Atoi`, that is `ParseInt s 10 0`: the value and the error. -/
def strconv.Atoi (s : GoString) : Int × Option GoError :=
  match s with
  | [] => (0, some (.numError s .errSyntax))
  | c :: cs =>
    let neg := c == '-'
    let body := if c == '+' || c == '-' then cs else s
    let cutoff : Nat := 2 ^ (strconv.IntSize - 1)
    match strconv.ParseUint body with
    | (_, some .errSyntax) => (0, some (.numError s .errSyntax))
    | (un, _) =>
      if !neg && decide (un ≥ cutoff) then
        ((cutoff : Int) - 1, some (.numError s .errRange))
      else if neg && decide (un > cutoff) then
        (-(cutoff : Int), some (.numError s .errRange))
      else (if neg then -(un : Int) else (un : Int), none)

/-! ## Standard library: `bufio.Scanner` with the default `ScanLines` split -/

/-- One successful `Scan()`: the token it delivers (a physical line, its end
of line stripped) and the read error, if any, that the underlying reader
returned during that call. -/
structure ScanStep where
  text : GoString
  readErr : Option GoError
  deriving DecidableEq

/-- A `bufio.Scanner` over some reader, seen from its caller: the steps its
coming successful `Scan()` calls will take, the read error (none for a clean
end of input) met by the call that finds no further token, and the values
`Text()` and `Err()` currently report. -/
structure Scanner where
  pending : List ScanStep
  finalErr : Option GoError
  text : GoString
  err : Option GoError
  deriving DecidableEq

/-- The first error is kept (`Scanner.setErr`). -/
def Scanner.setErr (old new : Option GoError) : Option GoError :=
  match old with
  | some e => some e
  | none => new

/-- State after a `Scan()` that delivered the step `st`, `rest` remaining. -/
def Scanner.deliver (sc : Scanner) (st : ScanStep) (rest : List ScanStep) : Scanner :=
  { sc with pending := rest, text := st.text, err := Scanner.setErr sc.err st.readErr }

/-- State after a `Scan()` that found no token and returned false. -/
def Scanner.finish (sc : Scanner) : Scanner :=
  { sc with pending := [], text := [], err := Scanner.setErr sc.err sc.finalErr }

/-- Go `scanner.Scan()`. -/
def Scanner.Scan (sc : Scanner) : Bool × Scanner :=
  match sc.pending with
  | [] => (false, sc.finish)
  | st :: rest => (true, sc.deliver st rest)

/-- A scanner that has not been used yet, over an input of the given lines
that ends cleanly. -/
def Scanner.ofLines (lines : List GoString) : Scanner :=
  { pending := lines.map (fun l => ⟨l, none⟩), finalErr := none, text := [], err := none }

/-! ## `scanLine` -/

/-- Go `ScanCoordReference`. -/
structure ScanCoordReference where
  HasTexCoordIndex : Bool
  HasNormalIndex : Bool
  VertexIndex : Int
  TexCoordIndex : Int
  NormalIndex : Int
  deriving DecidableEq

/-- Go `scanLine`. The field `segmentRegex` always holds the compiled
expression `[\s]+` and is modelled by the functions `segmentRegex.*`. -/
structure scanLine where
  atEOF : Bool
  lineBuffer : GoString
  isComment : Bool
  comment : GoString
  segments : Option (List GoString)
  deriving DecidableEq

/-- Go `NewScanLine`. -/
def NewScanLine : scanLine :=
  { atEOF := false, lineBuffer := [], isComment := false, comment := [], segments := none }

/-- The backslash, the continuation marker. -/
def marker : GoString := ['\\']

/-- The `for scanner.Scan()` loop of `readLogicalLine`, by recursion on the
steps the scanner still has to take (`sc.pending` on entry). -/
def scanLine.readLoop (c : scanLine) (sc : Scanner) :
    List ScanStep → (GoString × Option GoError) × scanLine × Scanner
  | [] =>
    let c := { c with atEOF := true }
    ((strings.TrimSpace c.lineBuffer, none), c, sc.finish)
  | st :: rest =>
    let sc := sc.deliver st rest
    if sc.err ≠ none then (([], sc.err), c, sc)
    else
      let line := sc.text
      if !strings.HasSuffix line marker then
        let c := { c with lineBuffer := c.lineBuffer ++ line }
        ((strings.TrimSpace c.lineBuffer, none), c, sc)
      else
        let content := strings.TrimSuffix line marker
        scanLine.readLoop { c with lineBuffer := c.lineBuffer ++ content } sc rest

/-- Go `(*scanLine).readLogicalLine`. -/
def scanLine.readLogicalLine (c : scanLine) (sc : Scanner) :
    (GoString × Option GoError) × scanLine × Scanner :=
  scanLine.readLoop { c with lineBuffer := [] } sc sc.pending

/-- The classification step of `Parse` (the statements after the error
check): the comment test on the logical line, then either the comment body
or the segments. -/
def scanLine.classify (c : scanLine) (logicalLine : GoString) : scanLine :=
  let c := { c with isComment := strings.HasPrefix logicalLine ['#'] }
  if c.isComment then
    { c with comment := strings.TrimSpace (strings.TrimPrefix logicalLine ['#']) }
  else
    { c with segments := some (segmentRegex.Split logicalLine) }

/-- Go `(*scanLine).Parse`. -/
def scanLine.Parse (c : scanLine) (sc : Scanner) : Option GoError × scanLine × Scanner :=
  let c := { c with comment := [], segments := some [] }
  match scanLine.readLogicalLine c sc with
  | ((logicalLine, err), c, sc) =>
    if err ≠ none then (err, c, sc)
    else (none, c.classify logicalLine, sc)

/-- Go `len(c.segments)`. -/
def scanLine.lenSegments (c : scanLine) : Nat :=
  match c.segments with
  | none => 0
  | some l => l.length

/-- Go `c.segments[i]`, a panic when out of range. -/
def scanLine.segmentAt (c : scanLine) (i : Int) : Option GoString :=
  match c.segments with
  | none => none
  | some l => if i < 0 then none else l[i.toNat]?

/-- Go `(*scanLine).IsAtEOF`. -/
def scanLine.IsAtEOF (c : scanLine) : Bool := c.atEOF

/-- Go `(*scanLine).IsBlank`. -/
def scanLine.IsBlank (c : scanLine) : Bool :=
  (c.comment == []) && (c.segments == none)

/-- Go `(*scanLine).IsComment`. -/
def scanLine.IsComment (c : scanLine) : Bool := c.isComment

/-- Go `(*scanLine).IsCommand`. -/
def scanLine.IsCommand (c : scanLine) (name : GoString) : Bool :=
  decide (c.lenSegments > 0) && (c.segmentAt 0 == some name)

/-- Go `(*scanLine).ParamCount`. -/
def scanLine.ParamCount (c : scanLine) : Int :=
  let count : Int := (c.lenSegments : Int) - 1
  if count < 0 then 0 else count

/-- Go `(*scanLine).StringParam`. -/
def scanLine.StringParam (c : scanLine) (index : Int) : Option GoString :=
  c.segmentAt (index + 1)

/-- Go `(*scanLine).FloatParam`. Floating-point numbers are not modelled:
`parseFloat` stands for `strconv.ParseFloat (s, 32)` with values in `F64`,
`toFloat32` for the conversion `float32 (value)` and `zero` for `0.0`. -/
def scanLine.FloatParam {F64 F32 : Type} (parseFloat : GoString → F64 × Option GoError)
    (toFloat32 : F64 → F32) (zero : F32) (c : scanLine) (index : Int) :
    Option (F32 × Option GoError) :=
  match c.StringParam index with
  | none => none
  | some s =>
    match parseFloat s with
    | (_, some err) => some (zero, some err)
    | (value, none) => some (toFloat32 value, none)

/-- The body of `CoordReferenceParam` once the parameter text is known. -/
def decodeCoordReference (param : GoString) : Option (ScanCoordReference × Option GoError) :=
  let zero : ScanCoordReference := ⟨false, false, 0, 0, 0⟩
  let references := strings.Split param '/'
  match references[0]? with
  | none => none
  | some r0 =>
    match strconv.Atoi r0 with
    | (_, some err) => some (zero, some err)
    | (v, none) =>
      let result := { zero with VertexIndex := v }
      let hasTex := decide (references.length > 1) && (references[1]? != some [])
      let afterTex : Option (ScanCoordReference × Option GoError) :=
        if hasTex then
          match references[1]? with
          | none => none
          | some r1 =>
            match strconv.Atoi r1 with
            | (_, some err) => some (zero, some err)
            | (t, none) => some ({ result with HasTexCoordIndex := true, TexCoordIndex := t }, none)
        else some ({ result with HasTexCoordIndex := false }, none)
      match afterTex with
      | none => none
      | some (res, some err) => some (res, some err)
      | some (result, none) =>
        let hasNormal := decide (references.length > 2) && (references[2]? != some [])
        if hasNormal then
          match references[2]? with
          | none => none
          | some r2 =>
            match strconv.Atoi r2 with
            | (_, some err) => some (zero, some err)
            | (n, none) => some ({ result with HasNormalIndex := true, NormalIndex := n }, none)
        else some ({ result with HasNormalIndex := false }, none)

/-- Go `(*scanLine).CoordReferenceParam`. -/
def scanLine.CoordReferenceParam (c : scanLine) (index : Int) :
    Option (ScanCoordReference × Option GoError) :=
  match c.StringParam index with
  | none => none
  | some param => decodeCoordReference param

/-- UTF-8 length of a rune. -/
def utf8Len (r : Char) : Nat :=
  if r.toNat < 0x80 then 1 else if r.toNat < 0x800 then 2 else if r.toNat < 0x10000 then 3 else 4

/-- Go `(*scanLine).GetComment`: `TrimSpace(c.lineBuffer.String()[1:])`. The
slice drops one byte; when the first rune takes several bytes, Go decodes each
of its remaining bytes as U+FFFD. An empty buffer makes the slice panic. -/
def scanLine.GetComment (c : scanLine) : Option GoString :=
  match c.lineBuffer with
  | [] => none
  | r :: rest => some (strings.TrimSpace (List.replicate (utf8Len r - 1) (Char.ofNat 0xFFFD) ++ rest))

/-! ## Auxiliary definitions for the statements -/

/-- The steps of a scanner that delivers the given physical lines with no
read error. -/
def okSteps (lines : List GoString) : List ScanStep :=
  lines.map (fun l => ⟨l, none⟩)

/-- The text `t0 w1 t1 ... wn tn` of a first token and the later tokens, each
with the separator run before it. -/
def joinTokens (t0 : GoString) (rest : List (GoString × GoString)) : GoString :=
  t0 ++ (rest.map (fun p => p.1 ++ p.2)).flatten

/-- A decimal digit. -/
def isDigit (c : Char) : Bool := decide (48 ≤ c.toNat) && decide (c.toNat ≤ 57)

/-- The number written by the digits `s` after the digits of value `n`. -/
def digitsValueFrom (n : Nat) (s : GoString) : Nat :=
  s.foldl (fun n c => n * 10 + (c.toNat - 48)) n

/-- The digits of a numeral: the text without its sign, if it has one. -/
def literalDigits (s : GoString) : GoString :=
  match s with
  | [] => []
  | c :: cs => if c == '+' || c == '-' then cs else s

/-- The integer a numeral denotes. -/
def literalValue (s : GoString) : Int :=
  if s.head? = some '-' then -(digitsValueFrom 0 (literalDigits s) : Int)
  else (digitsValueFrom 0 (literalDigits s) : Int)

/-- An integer literal: an optional sign, then one or more decimal digits,
denoting a value that fits Go `int`. -/
def isIntegerLiteral (s : GoString) : Bool :=
  !(literalDigits s).isEmpty && (literalDigits s).all isDigit &&
    decide (-((2 : Int) ^ 63) ≤ literalValue s) && decide (literalValue s < (2 : Int) ^ 63)

/-- A slot that is present and not empty. -/
def slotPresent (o : Option GoString) : Bool :=
  match o with
  | some (_ :: _) => true
  | _ => false

/-- An optional slot that is absent, empty, or an integer literal. -/
def slotOk (o : Option GoString) : Bool :=
  match o with
  | some (c :: cs) => isIntegerLiteral (c :: cs)
  | _ => true

/-- The index an optional slot denotes, 0 when it is absent or empty. -/
def slotValue (o : Option GoString) : Int :=
  match o with
  | some (c :: cs) => literalValue (c :: cs)
  | _ => 0

/-- The grammar `coordref := V ["/" [T] ["/" [N]]]` of the specification: the
text splits on `/` into at most three slots, slot 0 an integer and slots 1 and
2 each empty or an integer. -/
def coordrefGrammar (text : GoString) : Bool :=
  decide ((strings.Split text '/').length ≤ 3) &&
    isIntegerLiteral ((strings.Split text '/').headD []) &&
    slotOk (strings.Split text '/')[1]? && slotOk (strings.Split text '/')[2]?

/-- The same conditions on slots 0, 1 and 2 with no bound on the number of
slots. -/
def coordrefLooseGrammar (text : GoString) : Bool :=
  isIntegerLiteral ((strings.Split text '/').headD []) &&
    slotOk (strings.Split text '/')[1]? && slotOk (strings.Split text '/')[2]?

/-- The whitespace-delimited tokens of a text, read off directly: the maximal
runs of runes that are not in the class `\s`; `cur` is the run being read. -/
def wordsFrom (cur : GoString) : GoString → List GoString
  | [] => if cur = [] then [] else [cur]
  | c :: cs =>
    if perlSpace c then
      if cur = [] then wordsFrom [] cs else cur :: wordsFrom [] cs
    else wordsFrom (cur ++ [c]) cs

/-- The whitespace-delimited tokens of a text. -/
def words (s : GoString) : List GoString := wordsFrom [] s

/-- A call of one of the methods of `ScanLine`. -/
inductive Call
  | parse (sc : Scanner)
  | isAtEOF
  | isBlank
  | isComment
  | isCommand (name : GoString)
  | paramCount
  | stringParam (index : Int)
  | floatParam (index : Int)
  | coordReferenceParam (index : Int)
  | getComment

/-- The receiver after a call: `Parse` updates it, the accessors assign no
field of it. -/
def scanLine.afterCall (c : scanLine) : Call → scanLine
  | .parse sc => (c.Parse sc).2.1
  | _ => c

/-- The receiver after a sequence of calls. -/
def scanLine.afterCalls (c : scanLine) (calls : List Call) : scanLine :=
  calls.foldl scanLine.afterCall c

/-- The result of the last of `n` successive `Parse` calls on one `scanLine`
and one scanner (for `n = 0` the initial state). -/
def scanLine.parseTimes : Nat → scanLine → Scanner → Option GoError × scanLine × Scanner
  | 0, c, sc => (none, c, sc)
  | n + 1, c, sc =>
    scanLine.Parse (scanLine.parseTimes n c sc).2.1 (scanLine.parseTimes n c sc).2.2

/-! ## Lemmas: reading a logical line -/

theorem hasSuffix_marker_iff (l : GoString) :
    strings.HasSuffix l marker = true ↔ l.getLast? = some '\\' := by
  rcases List.eq_nil_or_concat l with rfl | ⟨p, x, rfl⟩
  · simp [strings.HasSuffix, marker]
  · simp [strings.HasSuffix, marker]

theorem hasSuffix_append_marker (p : GoString) :
    strings.HasSuffix (p ++ marker) marker = true := by
  rw [hasSuffix_marker_iff]; simp [marker]

theorem trimSuffix_append_marker (p : GoString) :
    strings.TrimSuffix (p ++ marker) marker = p := by
  simp [strings.TrimSuffix, hasSuffix_append_marker]

theorem deliver_ok (sc : Scanner) (l : GoString) (rest : List ScanStep) (h : sc.err = none) :
    sc.deliver ⟨l, none⟩ rest = { sc with pending := rest, text := l } := by
  cases sc
  simp_all [Scanner.deliver, Scanner.setErr]

theorem readLoop_join (ps : List GoString) :
    ∀ (c : scanLine) (sc : Scanner) (last : GoString) (rest : List ScanStep),
      sc.err = none → last.getLast? ≠ some '\\' →
      scanLine.readLoop c sc (okSteps (ps.map (fun p => p ++ marker) ++ [last]) ++ rest) =
        ((strings.TrimSpace (c.lineBuffer ++ (ps.flatten ++ last)), none),
          { c with lineBuffer := c.lineBuffer ++ (ps.flatten ++ last) },
          { sc with pending := rest, text := last }) := by
  induction ps with
  | nil =>
    intro c sc last rest herr hlast
    have hs : strings.HasSuffix last marker = false := by
      rw [← Bool.not_eq_true, hasSuffix_marker_iff]; exact hlast
    simp [okSteps, scanLine.readLoop, deliver_ok _ _ _ herr, herr, hs]
  | cons p ps ih =>
    intro c sc last rest herr hlast
    have := ih { c with lineBuffer := c.lineBuffer ++ p }
      { sc with pending := okSteps (ps.map (fun p => p ++ marker) ++ [last]) ++ rest, text := p ++ marker }
      last rest herr hlast
    simp [okSteps, herr] at this
    simp [okSteps, scanLine.readLoop, deliver_ok _ _ _ herr, herr, hasSuffix_append_marker,
      trimSuffix_append_marker, this]

/-! ## Lemmas: splitting on `[\s]+` -/

theorem perlSpace_isSpace (r : Char) (h : perlSpace r = true) : unicode.IsSpace r = true := by
  simp only [perlSpace, Bool.or_eq_true, beq_iff_eq] at h
  simp only [unicode.IsSpace, Bool.or_eq_true, Bool.and_eq_true, decide_eq_true_eq, beq_iff_eq]
  omega

theorem findFrom_token (t : GoString) :
    ∀ (pos : Nat) (r : GoString), (∀ x ∈ t, perlSpace x = false) →
      segmentRegex.findFrom pos none (t ++ r) = segmentRegex.findFrom (pos + t.length) none r := by
  induction t with
  | nil => intro pos r _; simp
  | cons x t ih =>
    intro pos r h
    have hx : perlSpace x = false := h x (by simp)
    have ht : ∀ y ∈ t, perlSpace y = false := fun y hy => h y (by simp [hy])
    simp [segmentRegex.findFrom, hx, ih (pos + 1) r ht]
    congr 1; omega

theorem findFrom_run (w : GoString) :
    ∀ (pos st : Nat) (r : GoString), (∀ x ∈ w, perlSpace x = true) →
      segmentRegex.findFrom pos (some st) (w ++ r) =
        segmentRegex.findFrom (pos + w.length) (some st) r := by
  induction w with
  | nil => intro pos st r _; simp
  | cons x w ih =>
    intro pos st r h
    have hx : perlSpace x = true := h x (by simp)
    have hw : ∀ y ∈ w, perlSpace y = true := fun y hy => h y (by simp [hy])
    simp [segmentRegex.findFrom, hx, ih (pos + 1) st r hw]
    congr 1; omega

theorem findFrom_token_run (t w t2 r : GoString) (pos : Nat)
    (ht : ∀ x ∈ t, perlSpace x = false) (hw : ∀ x ∈ w, perlSpace x = true) (hw0 : w ≠ [])
    (ht2 : ∀ x ∈ t2, perlSpace x = false) (ht20 : t2 ≠ []) :
    segmentRegex.findFrom pos none (t ++ (w ++ (t2 ++ r))) =
      (pos + t.length, pos + t.length + w.length) ::
        segmentRegex.findFrom (pos + t.length + w.length) none (t2 ++ r) := by
  rw [findFrom_token t pos _ ht]
  obtain ⟨x, w1, rfl⟩ := List.exists_cons_of_ne_nil hw0
  obtain ⟨y, t3, rfl⟩ := List.exists_cons_of_ne_nil ht20
  have hx : perlSpace x = true := hw x (by simp)
  have hw1 : ∀ z ∈ w1, perlSpace z = true := fun z hz => hw z (by simp [hz])
  have hy : perlSpace y = false := ht2 y (by simp)
  have e1 : segmentRegex.findFrom (pos + t.length) none (x :: w1 ++ (y :: t3 ++ r)) =
      segmentRegex.findFrom (pos + t.length + 1) (some (pos + t.length)) (w1 ++ (y :: t3 ++ r)) := by
    simp [segmentRegex.findFrom, hx]
  have e2 : segmentRegex.findFrom (pos + t.length + 1 + w1.length) (some (pos + t.length))
      (y :: t3 ++ r) = (pos + t.length, pos + t.length + 1 + w1.length) ::
        segmentRegex.findFrom (pos + t.length + 1 + w1.length + 1) none (t3 ++ r) := by
    simp [segmentRegex.findFrom, hy]
  have e3 : segmentRegex.findFrom (pos + t.length + (x :: w1).length) none (y :: t3 ++ r) =
      segmentRegex.findFrom (pos + t.length + (x :: w1).length + 1) none (t3 ++ r) := by
    simp [segmentRegex.findFrom, hy]
  rw [e1, findFrom_run w1 _ _ _ hw1, e2, e3]
  simp only [List.length_cons]
  have h1 : pos + t.length + 1 + w1.length = pos + t.length + (w1.length + 1) := by omega
  rw [h1]

theorem slice_mid (p t r : GoString) : slice (p ++ (t ++ r)) p.length (p.length + t.length) = t := by
  simp [slice, List.take_append_eq_append_take, List.take_of_length_le]

theorem splitLoop_tokens (rest : List (GoString × GoString)) :
    ∀ (p t : GoString) (strs : List GoString) (e : Nat),
      t ≠ [] → (∀ x ∈ t, perlSpace x = false) →
      (∀ q ∈ rest, (q.1 ≠ [] ∧ ∀ x ∈ q.1, perlSpace x = true) ∧
        (q.2 ≠ [] ∧ ∀ x ∈ q.2, perlSpace x = false)) →
      e ≤ p.length →
      (let s := p ++ joinTokens t rest
       let r := segmentRegex.splitLoop s
         (segmentRegex.findFrom p.length none (joinTokens t rest)) (strs, p.length, e)
       if r.2.2 ≠ s.length then r.1 ++ [s.drop r.2.1] else r.1) =
        strs ++ t :: rest.map Prod.snd := by
  induction rest with
  | nil =>
    intro p t strs e ht0 ht _ he
    have hlen : 0 < t.length := List.length_pos.mpr ht0
    have hf := findFrom_token t p.length [] ht
    simp only [List.append_nil] at hf
    simp [joinTokens, hf, segmentRegex.findFrom, segmentRegex.splitLoop]
    omega
  | cons q rest ih =>
    intro p t strs e ht0 ht hrest he
    obtain ⟨⟨hw0, hw⟩, ht20, ht2⟩ := hrest q (by simp)
    have hrest2 : ∀ q2 ∈ rest, (q2.1 ≠ [] ∧ ∀ x ∈ q2.1, perlSpace x = true) ∧
        (q2.2 ≠ [] ∧ ∀ x ∈ q2.2, perlSpace x = false) := fun q2 h2 => hrest q2 (by simp [h2])
    have hj : joinTokens t (q :: rest) = t ++ (q.1 ++ (q.2 ++ (rest.map (fun p => p.1 ++ p.2)).flatten)) := by
      simp [joinTokens]
    have hj2 : joinTokens q.2 rest = q.2 ++ (rest.map (fun p => p.1 ++ p.2)).flatten := rfl
    have hwlen : 0 < q.1.length := List.length_pos.mpr hw0
    have key := ih (p ++ (t ++ q.1)) q.2 (strs ++ [t]) (p.length + t.length) ht20 ht2 hrest2
      (by simp)
    rw [hj, findFrom_token_run t q.1 q.2 _ p.length ht hw hw0 ht2 ht20]
    simp only [segmentRegex.splitLoop]
    rw [slice_mid]
    rw [hj2] at key
    simp only [List.length_append, List.append_assoc] at key ⊢
    have hne : p.length + t.length + q.1.length ≠ 0 := by omega
    simp only [hne, ne_eq, not_false_eq_true, if_true]
    rw [← Nat.add_assoc] at key
    simpa using key

theorem split_tokens (t0 : GoString) (rest : List (GoString × GoString))
    (ht0 : t0 ≠ []) (ht : ∀ x ∈ t0, perlSpace x = false)
    (hrest : ∀ q ∈ rest, (q.1 ≠ [] ∧ ∀ x ∈ q.1, perlSpace x = true) ∧
        (q.2 ≠ [] ∧ ∀ x ∈ q.2, perlSpace x = false)) :
    segmentRegex.Split (joinTokens t0 rest) = t0 :: rest.map Prod.snd := by
  have hlen : (joinTokens t0 rest).length ≠ 0 := by
    intro h
    have h2 := List.length_eq_zero.mp h
    simp [joinTokens, ht0] at h2
  have key := splitLoop_tokens rest [] t0 [] 0 ht0 ht hrest (by simp)
  simp only [List.nil_append, List.length_nil] at key
  simp only [segmentRegex.Split, hlen, if_false, segmentRegex.FindAllStringIndex]
  exact key

/-! ## Lemmas: trimming -/

theorem trimSpace_core (lead body trail : GoString)
    (hl : ∀ x ∈ lead, unicode.IsSpace x = true) (ht : ∀ x ∈ trail, unicode.IsSpace x = true)
    (hh : ∀ x, body.head? = some x → unicode.IsSpace x = false)
    (hlast : ∀ x, body.getLast? = some x → unicode.IsSpace x = false) :
    strings.TrimSpace (lead ++ (body ++ trail)) = body := by
  unfold strings.TrimSpace
  rw [List.dropWhile_append_of_pos hl]
  rcases List.eq_nil_or_concat body with rfl | ⟨b, y, rfl⟩
  · have h1 : List.dropWhile unicode.IsSpace trail = [] := by
      rw [List.dropWhile_eq_nil_iff]; exact ht
    simp [h1]
  · rw [List.concat_eq_append] at hh hlast ⊢
    have hy : unicode.IsSpace y = false := hlast y (by simp)
    have h1 : List.dropWhile unicode.IsSpace (b ++ [y] ++ trail) = b ++ [y] ++ trail := by
      cases b with
      | nil => simp [List.dropWhile_cons, hy]
      | cons x b =>
        have hx : unicode.IsSpace x = false := hh x (by simp)
        simp [List.dropWhile_cons, hx]
    rw [h1, List.rdropWhile, List.reverse_append, List.dropWhile_append_of_pos]
    · simp [List.dropWhile_cons, hy]
    · intro a ha; exact ht a (List.mem_reverse.mp ha)

theorem joinTokens_last (rest : List (GoString × GoString)) :
    ∀ t0 : GoString, ∃ pre tn, (t0 :: rest.map Prod.snd).getLast? = some tn ∧
      joinTokens t0 rest = pre ++ tn := by
  induction rest with
  | nil => intro t0; exact ⟨[], t0, by simp, by simp [joinTokens]⟩
  | cons q rest ih =>
    intro t0
    obtain ⟨pre, tn, h1, h2⟩ := ih q.2
    refine ⟨t0 ++ q.1 ++ pre, tn, ?_, ?_⟩
    · rw [List.map_cons, List.getLast?_cons_cons]; exact h1
    · simp only [joinTokens] at h2 ⊢
      simp [h2]

theorem getLast?_append_ne_nil (a b : GoString) (hb : b ≠ []) :
    (a ++ b).getLast? = b.getLast? := by
  rcases List.eq_nil_or_concat b with rfl | ⟨b2, y, rfl⟩
  · exact absurd rfl hb
  · rw [List.concat_eq_append, ← List.append_assoc]; simp

/-! ## Lemmas: `Parse` on well-formed lines -/

theorem parse_of_read (c : scanLine) (sc : Scanner) (l : GoString) (c1 : scanLine)
    (sc1 : Scanner)
    (h : scanLine.readLogicalLine { c with comment := [], segments := some [] } sc =
      ((l, none), c1, sc1)) :
    scanLine.Parse c sc = (none, c1.classify l, sc1) := by
  simp [scanLine.Parse, h]

theorem read_join (c : scanLine) (sc : Scanner) (ps : List GoString) (last : GoString)
    (rest : List ScanStep) (herr : sc.err = none) (hlast : last.getLast? ≠ some '\\')
    (hpend : sc.pending = okSteps (ps.map (fun p => p ++ marker) ++ [last]) ++ rest) :
    scanLine.readLogicalLine c sc =
      ((strings.TrimSpace (ps.flatten ++ last), none),
        { c with lineBuffer := ps.flatten ++ last },
        { sc with pending := rest, text := last }) := by
  unfold scanLine.readLogicalLine
  rw [hpend, readLoop_join ps _ sc last rest herr hlast]
  simp

theorem not_perlSpace_of_not_isSpace (r : Char) (h : unicode.IsSpace r = false) :
    perlSpace r = false := by
  cases hp : perlSpace r with
  | false => rfl
  | true => rw [perlSpace_isSpace r hp] at h; exact absurd h (by decide)

theorem classify_tokens (c : scanLine) (t0 : GoString) (rest : List (GoString × GoString))
    (ht0 : t0 ≠ [] ∧ ∀ r ∈ t0, unicode.IsSpace r = false)
    (hrest : ∀ q ∈ rest, (q.1 ≠ [] ∧ ∀ r ∈ q.1, r = ' ' ∨ r = '\t') ∧
      (q.2 ≠ [] ∧ ∀ r ∈ q.2, unicode.IsSpace r = false))
    (hhash : t0.head? ≠ some '#') :
    c.classify (joinTokens t0 rest) =
      { c with isComment := false, segments := some (t0 :: rest.map Prod.snd) } := by
  have hsplit : segmentRegex.Split (joinTokens t0 rest) = t0 :: rest.map Prod.snd := by
    apply split_tokens t0 rest ht0.1
    · exact fun x hx => not_perlSpace_of_not_isSpace x (ht0.2 x hx)
    · intro q hq
      obtain ⟨⟨h1, h2⟩, h3, h4⟩ := hrest q hq
      refine ⟨⟨h1, ?_⟩, h3, fun x hx => not_perlSpace_of_not_isSpace x (h4 x hx)⟩
      intro x hx
      rcases h2 x hx with rfl | rfl <;> decide
  obtain ⟨x, t, rfl⟩ := List.exists_cons_of_ne_nil ht0.1
  have hx : x ≠ '#' := by simpa using hhash
  have hp : strings.HasPrefix (joinTokens (x :: t) rest) ['#'] = false := by
    simp [strings.HasPrefix, joinTokens, hx]
  simp [scanLine.classify, hp, hsplit]

theorem line_tokens (lead trail t0 : GoString) (rest : List (GoString × GoString))
    (hlead : ∀ r ∈ lead, unicode.IsSpace r = true)
    (htrail : ∀ r ∈ trail, unicode.IsSpace r = true)
    (ht0 : t0 ≠ [] ∧ ∀ r ∈ t0, unicode.IsSpace r = false)
    (hrest : ∀ q ∈ rest, (q.1 ≠ [] ∧ ∀ r ∈ q.1, r = ' ' ∨ r = '\t') ∧
      (q.2 ≠ [] ∧ ∀ r ∈ q.2, unicode.IsSpace r = false))
    (hmark : ∀ tn, (t0 :: rest.map Prod.snd).getLast? = some tn → tn.getLast? ≠ some '\\') :
    (lead ++ (joinTokens t0 rest ++ trail)).getLast? ≠ some '\\' ∧
      strings.TrimSpace (lead ++ (joinTokens t0 rest ++ trail)) = joinTokens t0 rest := by
  obtain ⟨pre, tn, hlast, hbody⟩ := joinTokens_last rest t0
  have hmem : tn ∈ t0 :: rest.map Prod.snd := List.mem_of_getLast?_eq_some hlast
  have htn : tn ≠ [] ∧ ∀ r ∈ tn, unicode.IsSpace r = false := by
    rcases List.mem_cons.mp hmem with h | h
    · rw [h]; exact ht0
    · obtain ⟨q, hq, rfl⟩ := List.mem_map.mp h
      exact (hrest q hq).2
  have hbl : (joinTokens t0 rest).getLast? = tn.getLast? := by
    rw [hbody]; exact getLast?_append_ne_nil pre tn htn.1
  have hbne : joinTokens t0 rest ≠ [] := by
    simp [joinTokens, ht0.1]
  constructor
  · by_cases htr : trail = []
    · subst htr
      rw [List.append_nil, getLast?_append_ne_nil _ _ hbne, hbl]
      exact hmark tn hlast
    · rw [getLast?_append_ne_nil _ _ (by simp [htr]), getLast?_append_ne_nil _ _ htr]
      intro h
      have := htrail _ (List.mem_of_getLast?_eq_some h)
      exact absurd this (by decide)
  · apply trimSpace_core lead _ trail hlead htrail
    · intro x hx
      obtain ⟨y, t, rfl⟩ := List.exists_cons_of_ne_nil ht0.1
      have : x = y := by simpa [joinTokens] using hx.symm
      rw [this]; exact ht0.2 y (by simp)
    · intro x hx
      rw [hbl] at hx
      exact htn.2 x (List.mem_of_getLast?_eq_some hx)

theorem readLoop_frame (p : List ScanStep) :
    ∀ (c : scanLine) (sc : Scanner),
      (scanLine.readLoop c sc p).2.1.isComment = c.isComment ∧
      (scanLine.readLoop c sc p).2.1.comment = c.comment ∧
      (scanLine.readLoop c sc p).2.1.segments = c.segments := by
  induction p with
  | nil => intro c sc; simp [scanLine.readLoop]
  | cons st rest ih =>
    intro c sc
    simp only [scanLine.readLoop]
    split
    · simp
    · split
      · simp
      · exact ih _ _

theorem readLoop_ok_line (p : List ScanStep) :
    ∀ (c : scanLine) (sc : Scanner), (scanLine.readLoop c sc p).1.2 = none →
      (scanLine.readLoop c sc p).1.1 =
        strings.TrimSpace (scanLine.readLoop c sc p).2.1.lineBuffer := by
  induction p with
  | nil => intro c sc _; simp [scanLine.readLoop]
  | cons st rest ih =>
    intro c sc
    simp only [scanLine.readLoop]
    split
    · rename_i h; intro h2; exact absurd h2 h
    · split
      · simp
      · exact ih _ _

theorem parse_ok (c : scanLine) (sc : Scanner) (h : (scanLine.Parse c sc).1 = none) :
    (scanLine.readLogicalLine { c with comment := [], segments := some [] } sc).1.2 = none ∧
      scanLine.Parse c sc =
        (none,
          (scanLine.readLogicalLine { c with comment := [], segments := some [] } sc).2.1.classify
            (scanLine.readLogicalLine { c with comment := [], segments := some [] } sc).1.1,
          (scanLine.readLogicalLine { c with comment := [], segments := some [] } sc).2.2) := by
  have hP : scanLine.Parse c sc =
      match scanLine.readLogicalLine { c with comment := [], segments := some [] } sc with
      | ((l, err), c1, sc1) =>
        if err ≠ none then (err, c1, sc1) else (none, c1.classify l, sc1) := rfl
  rw [hP] at h ⊢
  generalize scanLine.readLogicalLine { c with comment := [], segments := some [] } sc = r at h ⊢
  obtain ⟨⟨l, e⟩, c1, sc1⟩ := r
  cases e with
  | none => simp
  | some e => simp at h

theorem hasPrefix_hash_iff (l : GoString) :
    strings.HasPrefix l ['#'] = true ↔ l.head? = some '#' := by
  cases l with
  | nil => simp [strings.HasPrefix]
  | cons x l => simp [strings.HasPrefix]

theorem classify_lineBuffer (c : scanLine) (l : GoString) :
    (c.classify l).lineBuffer = c.lineBuffer ∧ (c.classify l).atEOF = c.atEOF ∧
      (c.classify l).isComment = strings.HasPrefix l ['#'] := by
  unfold scanLine.classify
  by_cases h : strings.HasPrefix l ['#'] = true <;> simp [h]

theorem readLoop_exhaust (ps : List GoString) :
    ∀ (c : scanLine) (sc : Scanner), sc.err = none →
      ((scanLine.readLoop c sc (okSteps (ps.map (fun p => p ++ marker)))).1 =
          (strings.TrimSpace (c.lineBuffer ++ ps.flatten), none)) ∧
        (scanLine.readLoop c sc (okSteps (ps.map (fun p => p ++ marker)))).2.1 =
          { c with atEOF := true, lineBuffer := c.lineBuffer ++ ps.flatten } := by
  induction ps with
  | nil => intro c sc _; simp [okSteps, scanLine.readLoop]
  | cons p ps ih =>
    intro c sc herr
    have := ih { c with lineBuffer := c.lineBuffer ++ p }
      { sc with pending := okSteps (ps.map (fun p => p ++ marker)), text := p ++ marker } herr
    simp [okSteps, herr] at this
    simp [okSteps, scanLine.readLoop, deliver_ok _ _ _ herr, herr, hasSuffix_append_marker,
      trimSuffix_append_marker, this]

theorem parse_exhaust (c : scanLine) (sc : Scanner) (ps : List GoString)
    (herr : sc.err = none) (hpend : sc.pending = okSteps (ps.map (fun p => p ++ marker))) :
    (scanLine.Parse c sc).1 = none ∧
      (scanLine.Parse c sc).2.1 =
        scanLine.classify
          { c with atEOF := true, comment := [], segments := some [], lineBuffer := ps.flatten }
          (strings.TrimSpace ps.flatten) := by
  have h := readLoop_exhaust ps { c with comment := [], segments := some [], lineBuffer := [] }
    sc herr
  have hP : scanLine.Parse c sc =
      match scanLine.readLoop { c with comment := [], segments := some [], lineBuffer := [] } sc
        sc.pending with
      | ((l, err), c1, sc1) =>
        if err ≠ none then (err, c1, sc1) else (none, c1.classify l, sc1) := rfl
  rw [hP, hpend]
  generalize scanLine.readLoop { c with comment := [], segments := some [], lineBuffer := [] } sc
    (okSteps (ps.map (fun p => p ++ marker))) = r at h
  obtain ⟨⟨l, e⟩, c1, sc1⟩ := r
  obtain ⟨h1, h2⟩ := h
  simp only [Prod.mk.injEq] at h1
  obtain ⟨rfl, rfl⟩ := h1
  simp only at h2
  subst h2
  simp

/-! ## Lemmas: `strconv.Atoi` and the coordinate-reference decoder -/

theorem digitsValueFrom_ge (s : GoString) : ∀ n, n ≤ digitsValueFrom n s := by
  induction s with
  | nil => intro n; simp [digitsValueFrom]
  | cons c cs ih =>
    intro n
    have := ih (n * 10 + (c.toNat - 48))
    simp only [digitsValueFrom, List.foldl_cons] at this ⊢
    omega

theorem parseUintLoop_ok_iff (s : GoString) :
    ∀ n m, n ≤ 2 ^ 64 - 1 → (strconv.parseUintLoop s n = .ok m ↔
      (s.all isDigit = true ∧ digitsValueFrom n s ≤ 2 ^ 64 - 1 ∧ m = digitsValueFrom n s)) := by
  induction s with
  | nil =>
    intro n m hn
    simp only [strconv.parseUintLoop, digitsValueFrom, List.foldl_nil, List.all_nil, true_and,
      Except.ok.injEq]
    constructor
    · intro h; exact ⟨hn, h.symm⟩
    · intro h; exact h.2.symm
  | cons c cs ih =>
    intro n m hn
    have hge := digitsValueFrom_ge cs (n * 10 + (c.toNat - 48))
    by_cases hd : isDigit c = true
    · have hd2 : (decide (48 ≤ c.toNat) && decide (c.toNat ≤ 57)) = true := hd
      simp only [strconv.parseUintLoop, hd2, if_true, List.all_cons, hd, Bool.true_and,
        digitsValueFrom, List.foldl_cons]
      simp only [digitsValueFrom] at hge
      by_cases h1 : n ≥ (2 ^ 64 - 1) / 10 + 1
      · simp only [h1, if_true]
        constructor
        · intro h; cases h
        · intro h; omega
      · simp only [h1, if_false]
        by_cases h2 : n * 10 + (c.toNat - 48) > 2 ^ 64 - 1
        · simp only [h2, if_true]
          constructor
          · intro h; cases h
          · intro h; omega
        · simp only [h2, if_false]
          have := ih (n * 10 + (c.toNat - 48)) m (by omega)
          simpa [digitsValueFrom] using this
    · have hd2 : (decide (48 ≤ c.toNat) && decide (c.toNat ≤ 57)) = false := by
        simpa [isDigit] using hd
      simp only [strconv.parseUintLoop, hd2, List.all_cons]
      simp [hd]

theorem parseUint_ok (body : GoString) (hb : body ≠ []) (un : Nat)
    (h : strconv.parseUintLoop body 0 = .ok un) : strconv.ParseUint body = (un, none) := by
  cases body with
  | nil => exact absurd rfl hb
  | cons c cs => simp only [strconv.ParseUint, h]

theorem parseUint_error (body : GoString) (k : NumErrKind)
    (h : body = [] ∧ k = .errSyntax ∨ strconv.parseUintLoop body 0 = .error k) :
    strconv.ParseUint body = (if k = .errRange then 2 ^ 64 - 1 else 0, some k) := by
  cases body with
  | nil =>
    rcases h with ⟨_, rfl⟩ | h
    · simp [strconv.ParseUint]
    · simp [strconv.parseUintLoop] at h
  | cons c cs =>
    rcases h with ⟨h, _⟩ | h
    · cases h
    · cases k <;> simp [strconv.ParseUint, h]

theorem literal_facts (c : Char) (cs : GoString) :
    isIntegerLiteral (c :: cs) = true ↔
      (literalDigits (c :: cs) ≠ [] ∧ (literalDigits (c :: cs)).all isDigit = true ∧
        (c = '-' → digitsValueFrom 0 (literalDigits (c :: cs)) ≤ 2 ^ 63) ∧
        (c ≠ '-' → digitsValueFrom 0 (literalDigits (c :: cs)) < 2 ^ 63)) := by
  by_cases hc : c = '-'
  · subst hc
    simp only [isIntegerLiteral, literalValue, List.head?_cons, if_true, Bool.and_eq_true,
      Bool.not_eq_true', List.isEmpty_eq_false, decide_eq_true_eq, ne_eq, not_true_eq_false,
      forall_true_left, IsEmpty.forall_iff, and_true]
    constructor
    · rintro ⟨⟨⟨h1, h2⟩, h3⟩, _⟩; refine ⟨h1, h2, ?_⟩; omega
    · rintro ⟨h1, h2, h3⟩; refine ⟨⟨⟨h1, h2⟩, ?_⟩, ?_⟩ <;> omega
  · have hc2 : ¬ (some c = some '-') := by simpa using hc
    simp only [isIntegerLiteral, literalValue, List.head?_cons, hc2, if_false, Bool.and_eq_true,
      Bool.not_eq_true', List.isEmpty_eq_false, decide_eq_true_eq, ne_eq, hc,
      not_false_eq_true, forall_true_left, IsEmpty.forall_iff, true_and]
    constructor
    · rintro ⟨⟨⟨h1, h2⟩, _⟩, h3⟩; refine ⟨h1, h2, ?_⟩; omega
    · rintro ⟨h1, h2, h3⟩; refine ⟨⟨⟨h1, h2⟩, ?_⟩, ?_⟩ <;> omega

theorem atoi_cons (c : Char) (cs : GoString) :
    strconv.Atoi (c :: cs) =
      match strconv.ParseUint (literalDigits (c :: cs)) with
      | (_, some .errSyntax) => (0, some (.numError (c :: cs) .errSyntax))
      | (un, _) =>
        if !(c == '-') && decide (un ≥ 2 ^ 63) then
          (((2 ^ 63 : Nat) : Int) - 1, some (.numError (c :: cs) .errRange))
        else if (c == '-') && decide (un > 2 ^ 63) then
          (-((2 ^ 63 : Nat) : Int), some (.numError (c :: cs) .errRange))
        else (if (c == '-') then -(un : Int) else (un : Int), none) := rfl

theorem atoi_literal (s : GoString) (h : isIntegerLiteral s = true) :
    strconv.Atoi s = (literalValue s, none) := by
  cases s with
  | nil => simp [isIntegerLiteral, literalDigits] at h
  | cons c cs =>
    obtain ⟨hb, hd, hneg, hpos⟩ := (literal_facts c cs).mp h
    have hle : digitsValueFrom 0 (literalDigits (c :: cs)) ≤ 2 ^ 64 - 1 := by
      by_cases hc : c = '-'
      · have := hneg hc; omega
      · have := hpos hc; omega
    have hok := (parseUintLoop_ok_iff (literalDigits (c :: cs)) 0 _ (by omega)).mpr ⟨hd, hle, rfl⟩
    rw [atoi_cons, parseUint_ok _ hb _ hok]
    by_cases hc : c = '-'
    · have := hneg hc
      subst hc
      have h2 : digitsValueFrom 0 (literalDigits ('-' :: cs)) ≤ 9223372036854775808 := by omega
      simp [literalValue, h2]
    · have := hpos hc
      have h2 : digitsValueFrom 0 (literalDigits (c :: cs)) < 9223372036854775808 := by omega
      simp [literalValue, hc, h2]

theorem atoi_not_literal (s : GoString) (h : isIntegerLiteral s = false) :
    ∃ k, (strconv.Atoi s).2 = some (.numError s k) := by
  cases s with
  | nil => exact ⟨.errSyntax, rfl⟩
  | cons c cs =>
    rw [atoi_cons]
    by_cases hb : literalDigits (c :: cs) = []
    · rw [parseUint_error _ .errSyntax (Or.inl ⟨hb, rfl⟩)]
      exact ⟨_, rfl⟩
    · cases hl : strconv.parseUintLoop (literalDigits (c :: cs)) 0 with
      | error k =>
        rw [parseUint_error _ k (Or.inr hl)]
        cases k with
        | errSyntax => exact ⟨_, rfl⟩
        | errRange =>
          by_cases hc : c = '-'
          · subst hc; exact ⟨.errRange, by simp⟩
          · exact ⟨.errRange, by simp [hc]⟩
      | ok un =>
        obtain ⟨hd, hle, hun⟩ := (parseUintLoop_ok_iff _ 0 un (by omega)).mp hl
        rw [parseUint_ok _ hb _ hl]
        have hnot : ¬ (isIntegerLiteral (c :: cs) = true) := by simp [h]
        rw [literal_facts] at hnot
        by_cases hc : c = '-'
        · subst hc
          have h3 : 9223372036854775808 < un := by
            by_contra h4
            exact hnot ⟨hb, hd, fun _ => by omega, fun h5 => absurd rfl h5⟩
          exact ⟨.errRange, by simp [h3]⟩
        · have h3 : 9223372036854775808 ≤ un := by
            by_contra h4
            exact hnot ⟨hb, hd, fun h5 => absurd h5 hc, fun _ => by omega⟩
          exact ⟨.errRange, by simp [hc, h3]⟩

theorem split_ne_nil (s : GoString) (sep : Char) : ∃ a l, strings.Split s sep = a :: l := by
  induction s with
  | nil => exact ⟨[], [], rfl⟩
  | cons c cs ih =>
    obtain ⟨a, l, h⟩ := ih
    by_cases hc : c = sep
    · exact ⟨[], a :: l, by simp [strings.Split, hc, h]⟩
    · exact ⟨c :: a, l, by simp [strings.Split, hc, h]⟩

theorem split_append_sep (v : GoString) (sep : Char) (r : GoString) (hv : sep ∉ v) :
    strings.Split (v ++ sep :: r) sep = v :: strings.Split r sep := by
  induction v with
  | nil => simp [strings.Split]
  | cons c cs ih =>
    have hc : c ≠ sep := fun h => hv (by simp [h])
    have hcs : sep ∉ cs := fun h => hv (by simp [h])
    simp [strings.Split, hc, ih hcs]

theorem split_no_sep (v : GoString) (sep : Char) (hv : sep ∉ v) :
    strings.Split v sep = [v] := by
  induction v with
  | nil => simp [strings.Split]
  | cons c cs ih =>
    have hc : c ≠ sep := fun h => hv (by simp [h])
    have hcs : sep ∉ cs := fun h => hv (by simp [h])
    simp [strings.Split, hc, ih hcs]

theorem literal_no_slash (s : GoString) (h : isIntegerLiteral s = true) : '/' ∉ s := by
  cases s with
  | nil => simp
  | cons c cs =>
    obtain ⟨_, hd, _, _⟩ := (literal_facts c cs).mp h
    rw [List.all_eq_true] at hd
    have hall : ∀ x ∈ literalDigits (c :: cs), x ≠ '/' := by
      intro x hx hx2
      have := hd x hx
      rw [hx2] at this
      exact absurd this (by decide)
    intro hmem
    by_cases hs : (c == '+' || c == '-') = true
    · simp only [literalDigits, hs, if_true] at hall
      rcases List.mem_cons.mp hmem with h1 | h1
      · rw [← h1] at hs; exact absurd hs (by decide)
      · exact hall _ h1 rfl
    · simp only [literalDigits, hs] at hall
      exact hall _ hmem rfl

theorem atoi_error_of_not_literal (s : GoString) (h : isIntegerLiteral s = false) :
    ∃ v e, strconv.Atoi s = (v, some e) ∧ (strconv.Atoi s).2 = some e ∧
      ∃ k, e = .numError s k := by
  obtain ⟨k, hk⟩ := atoi_not_literal s h
  refine ⟨(strconv.Atoi s).1, _, ?_, hk, k, rfl⟩
  rw [← hk]

theorem slotOk_cases (o : Option GoString) (h : slotOk o = true) :
    o = none ∨ o = some [] ∨ ∃ s, o = some s ∧ s ≠ [] ∧ isIntegerLiteral s = true := by
  cases o with
  | none => exact Or.inl rfl
  | some s =>
    cases s with
    | nil => exact Or.inr (Or.inl rfl)
    | cons c cs => exact Or.inr (Or.inr ⟨c :: cs, rfl, by simp, h⟩)

theorem decode_err0 (text r0 : GoString) (tl : List GoString)
    (hs : strings.Split text '/' = r0 :: tl) (h0 : isIntegerLiteral r0 = false) :
    decodeCoordReference text = some (⟨false, false, 0, 0, 0⟩, (strconv.Atoi r0).2) := by
  obtain ⟨v, e, hA, hA2, _⟩ := atoi_error_of_not_literal r0 h0
  simp [decodeCoordReference, hs, hA]

theorem decode_err1 (text r0 r1 : GoString) (tl : List GoString)
    (hs : strings.Split text '/' = r0 :: r1 :: tl) (h0 : isIntegerLiteral r0 = true)
    (hne : r1 ≠ []) (h1 : isIntegerLiteral r1 = false) :
    decodeCoordReference text = some (⟨false, false, 0, 0, 0⟩, (strconv.Atoi r1).2) := by
  obtain ⟨v, e, hA, hA2, _⟩ := atoi_error_of_not_literal r1 h1
  simp [decodeCoordReference, hs, atoi_literal r0 h0, hA, hne]

theorem decode_err2 (text r0 r1 r2 : GoString) (tl : List GoString)
    (hs : strings.Split text '/' = r0 :: r1 :: r2 :: tl) (h0 : isIntegerLiteral r0 = true)
    (h1 : slotOk (some r1) = true)
    (hne : r2 ≠ []) (h2 : isIntegerLiteral r2 = false) :
    decodeCoordReference text = some (⟨false, false, 0, 0, 0⟩, (strconv.Atoi r2).2) := by
  obtain ⟨v, e, hA, hA2, _⟩ := atoi_error_of_not_literal r2 h2
  rcases slotOk_cases _ h1 with h | h | ⟨s, h, hsne, hl⟩
  · cases h
  · cases h
    simp [decodeCoordReference, hs, atoi_literal r0 h0, hA, hne]
  · cases h
    simp [decodeCoordReference, hs, atoi_literal r0 h0, atoi_literal r1 hl, hA, hne, hsne]

theorem decode_ok (text r0 : GoString) (tl : List GoString)
    (hs : strings.Split text '/' = r0 :: tl) (h0 : isIntegerLiteral r0 = true)
    (h1 : slotOk tl[0]? = true) (h2 : slotOk tl[1]? = true) :
    decodeCoordReference text =
      some (⟨slotPresent tl[0]?, slotPresent tl[1]?, literalValue r0, slotValue tl[0]?,
        slotValue tl[1]?⟩, none) := by
  cases tl with
  | nil => simp [decodeCoordReference, hs, atoi_literal r0 h0, slotPresent, slotValue]
  | cons r1 tl2 =>
    cases tl2 with
    | nil =>
      rcases slotOk_cases _ h1 with h | h | ⟨s, h, hsne, hl⟩
      · simp at h
      · simp at h; subst h
        simp [decodeCoordReference, hs, atoi_literal r0 h0, slotPresent, slotValue]
      · simp at h; subst h
        obtain ⟨c, cs, rfl⟩ := List.exists_cons_of_ne_nil hsne
        simp [decodeCoordReference, hs, atoi_literal r0 h0, atoi_literal _ hl, slotPresent,
          slotValue]
    | cons r2 tl3 =>
      rcases slotOk_cases _ h1 with h | h | ⟨s, h, hsne, hl⟩
      · simp at h
      · simp at h; subst h
        rcases slotOk_cases _ h2 with h' | h' | ⟨s', h', hsne', hl'⟩
        · simp at h'
        · simp at h'; subst h'
          simp [decodeCoordReference, hs, atoi_literal r0 h0, slotPresent, slotValue]
        · simp at h'; subst h'
          obtain ⟨c', cs', rfl⟩ := List.exists_cons_of_ne_nil hsne'
          simp [decodeCoordReference, hs, atoi_literal r0 h0, atoi_literal _ hl', slotPresent,
            slotValue]
      · simp at h; subst h
        obtain ⟨c, cs, rfl⟩ := List.exists_cons_of_ne_nil hsne
        rcases slotOk_cases _ h2 with h' | h' | ⟨s', h', hsne', hl'⟩
        · simp at h'
        · simp at h'; subst h'
          simp [decodeCoordReference, hs, atoi_literal r0 h0, atoi_literal _ hl, slotPresent,
            slotValue]
        · simp at h'; subst h'
          obtain ⟨c', cs', rfl⟩ := List.exists_cons_of_ne_nil hsne'
          simp [decodeCoordReference, hs, atoi_literal r0 h0, atoi_literal _ hl,
            atoi_literal _ hl', slotPresent, slotValue]

theorem coordParam_eq (c : scanLine) (i : Int) (text : GoString)
    (h : c.StringParam i = some text) :
    c.CoordReferenceParam i = decodeCoordReference text := by
  simp [scanLine.CoordReferenceParam, h]

/-! ## Lemmas: the record of any successful `Parse` -/

theorem trimSpace_ends (s : GoString) :
    (∀ x, (strings.TrimSpace s).head? = some x → unicode.IsSpace x = false) ∧
      (∀ y, (strings.TrimSpace s).getLast? = some y → unicode.IsSpace y = false) := by
  constructor
  · intro x hx
    have hpre : strings.TrimSpace s <+: s.dropWhile unicode.IsSpace := List.rdropWhile_prefix _ _
    obtain ⟨t, ht⟩ := hpre
    cases hT : strings.TrimSpace s with
    | nil => rw [hT] at hx; simp at hx
    | cons a l =>
      rw [hT] at hx ht
      simp at hx
      subst hx
      have h2 := List.head?_dropWhile_not unicode.IsSpace s
      rw [← ht] at h2
      simpa using h2
  · intro y hy
    by_cases hne : strings.TrimSpace s = []
    · rw [hne] at hy; simp at hy
    · have h := List.rdropWhile_last_not unicode.IsSpace (s.dropWhile unicode.IsSpace) hne
      have h3 : (strings.TrimSpace s).getLast? = some ((strings.TrimSpace s).getLast hne) :=
        List.getLast?_eq_getLast _ hne
      rw [h3] at hy
      simp only [Option.some.injEq] at hy
      rw [← hy]
      simpa [strings.TrimSpace] using h

theorem tokens_decompose (l : GoString) :
    l ≠ [] → (∀ y, l.getLast? = some y → perlSpace y = false) →
      ∃ (w t0 : GoString) (rest : List (GoString × GoString)),
        l = w ++ joinTokens t0 rest ∧ (∀ x ∈ w, perlSpace x = true) ∧
        (t0 ≠ [] ∧ ∀ x ∈ t0, perlSpace x = false) ∧
        (∀ q ∈ rest, (q.1 ≠ [] ∧ ∀ x ∈ q.1, perlSpace x = true) ∧
          (q.2 ≠ [] ∧ ∀ x ∈ q.2, perlSpace x = false)) ∧
        ((∀ x, l.head? = some x → perlSpace x = false) → w = []) := by
  induction l with
  | nil => intro h; exact absurd rfl h
  | cons a l ih =>
    intro _ hlast
    by_cases hl : l = []
    · subst hl
      have ha : perlSpace a = false := hlast a (by simp)
      refine ⟨[], [a], [], by simp [joinTokens], by simp, ⟨by simp, by simpa using ha⟩,
        by simp, fun _ => rfl⟩
    · obtain ⟨b, l2, rfl⟩ := List.exists_cons_of_ne_nil hl
      have hlast2 : ∀ y, (b :: l2).getLast? = some y → perlSpace y = false := by
        intro y hy
        apply hlast y
        rw [List.getLast?_cons_cons]
        exact hy
      obtain ⟨w, t0, rest, hdec, hw, ht0, hrest, hhead⟩ := ih hl hlast2
      by_cases ha : perlSpace a = true
      · refine ⟨a :: w, t0, rest, by simp [hdec], ?_, ht0, hrest, ?_⟩
        · intro x hx
          rcases List.mem_cons.mp hx with h | h
          · rw [h]; exact ha
          · exact hw x h
        · intro h
          have := h a (by simp)
          rw [ha] at this
          exact absurd this (by decide)
      · have ha2 : perlSpace a = false := by simpa using ha
        by_cases hwn : w = []
        · subst hwn
          refine ⟨[], a :: t0, rest, ?_, by simp, ⟨by simp, ?_⟩, hrest, fun _ => rfl⟩
          · rw [hdec]; simp [joinTokens]
          · intro x hx
            rcases List.mem_cons.mp hx with h | h
            · rw [h]; exact ha2
            · exact ht0.2 x h
        · refine ⟨[], [a], (w, t0) :: rest, ?_, by simp, ⟨by simp, by simpa using ha2⟩, ?_,
            fun _ => rfl⟩
          · rw [hdec]; simp [joinTokens]
          · intro q hq
            rcases List.mem_cons.mp hq with h | h
            · rw [h]; exact ⟨⟨hwn, hw⟩, ht0⟩
            · exact hrest q h

theorem trimmed_decompose (s : GoString) (hne : strings.TrimSpace s ≠ []) :
    ∃ (t0 : GoString) (rest : List (GoString × GoString)),
      strings.TrimSpace s = joinTokens t0 rest ∧
      (t0 ≠ [] ∧ ∀ x ∈ t0, perlSpace x = false) ∧
      (∀ q ∈ rest, (q.1 ≠ [] ∧ ∀ x ∈ q.1, perlSpace x = true) ∧
        (q.2 ≠ [] ∧ ∀ x ∈ q.2, perlSpace x = false)) := by
  obtain ⟨hh, hl⟩ := trimSpace_ends s
  have hp : ∀ x, unicode.IsSpace x = false → perlSpace x = false := by
    intro x hx
    cases hps : perlSpace x with
    | false => rfl
    | true => rw [perlSpace_isSpace x hps] at hx; exact absurd hx (by decide)
  obtain ⟨w, t0, rest, hdec, _, ht0, hrest, hhead⟩ :=
    tokens_decompose (strings.TrimSpace s) hne (fun y hy => hp y (hl y hy))
  have hw : w = [] := hhead (fun x hx => hp x (hh x hx))
  subst hw
  exact ⟨t0, rest, by simpa using hdec, ht0, hrest⟩

theorem wordsFrom_token (t : GoString) :
    ∀ (cur r : GoString), (∀ x ∈ t, perlSpace x = false) →
      wordsFrom cur (t ++ r) = wordsFrom (cur ++ t) r := by
  induction t with
  | nil => intro cur r _; simp
  | cons x t ih =>
    intro cur r h
    have hx : perlSpace x = false := h x (by simp)
    have ht : ∀ y ∈ t, perlSpace y = false := fun y hy => h y (by simp [hy])
    simp [wordsFrom, hx, ih (cur ++ [x]) r ht]

theorem wordsFrom_run (w : GoString) :
    ∀ (r : GoString), (∀ x ∈ w, perlSpace x = true) → wordsFrom [] (w ++ r) = wordsFrom [] r := by
  induction w with
  | nil => intro r _; simp
  | cons x w ih =>
    intro r h
    have hx : perlSpace x = true := h x (by simp)
    have hw : ∀ y ∈ w, perlSpace y = true := fun y hy => h y (by simp [hy])
    simp [wordsFrom, hx, ih r hw]

theorem words_tokens (rest : List (GoString × GoString)) :
    ∀ t0 : GoString, t0 ≠ [] → (∀ x ∈ t0, perlSpace x = false) →
      (∀ q ∈ rest, (q.1 ≠ [] ∧ ∀ x ∈ q.1, perlSpace x = true) ∧
        (q.2 ≠ [] ∧ ∀ x ∈ q.2, perlSpace x = false)) →
      words (joinTokens t0 rest) = t0 :: rest.map Prod.snd := by
  induction rest with
  | nil =>
    intro t0 h0 ht _
    have := wordsFrom_token t0 [] [] ht
    simp only [List.append_nil, List.nil_append] at this
    simp [words, joinTokens, this, wordsFrom, h0]
  | cons q rest ih =>
    intro t0 h0 ht hrest
    obtain ⟨⟨hw0, hw⟩, ht20, ht2⟩ := hrest q (by simp)
    have hrest2 : ∀ q2 ∈ rest, (q2.1 ≠ [] ∧ ∀ x ∈ q2.1, perlSpace x = true) ∧
        (q2.2 ≠ [] ∧ ∀ x ∈ q2.2, perlSpace x = false) := fun q2 h2 => hrest q2 (by simp [h2])
    have hj : joinTokens t0 (q :: rest) = t0 ++ (q.1 ++ joinTokens q.2 rest) := by
      simp [joinTokens]
    obtain ⟨a, w1, hq1⟩ := List.exists_cons_of_ne_nil hw0
    have ha : perlSpace a = true := hw a (by simp [hq1])
    have hw1 : ∀ y ∈ w1, perlSpace y = true := fun y hy => hw y (by simp [hq1, hy])
    have step : wordsFrom t0 (a :: (w1 ++ joinTokens q.2 rest)) =
        t0 :: wordsFrom [] (w1 ++ joinTokens q.2 rest) := by
      simp [wordsFrom, ha, h0]
    have e := ih q.2 ht20 ht2 hrest2
    simp only [words] at e
    rw [words, hj, wordsFrom_token t0 [] _ ht, List.nil_append, hq1, List.cons_append, step,
      wordsFrom_run w1 _ hw1, e]
    simp

theorem split_trimmed (s : GoString) (hne : strings.TrimSpace s ≠ []) :
    segmentRegex.Split (strings.TrimSpace s) = words (strings.TrimSpace s) ∧
      (∃ t0 ts, segmentRegex.Split (strings.TrimSpace s) = t0 :: ts) ∧
      ∀ t ∈ segmentRegex.Split (strings.TrimSpace s), t ≠ [] ∧ ∀ x ∈ t, perlSpace x = false := by
  obtain ⟨t0, rest, hdec, ht0, hrest⟩ := trimmed_decompose s hne
  have h1 := split_tokens t0 rest ht0.1 ht0.2 hrest
  have h2 := words_tokens rest t0 ht0.1 ht0.2 hrest
  rw [hdec, h1, h2]
  refine ⟨rfl, ⟨t0, _, rfl⟩, ?_⟩
  intro t ht
  rcases List.mem_cons.mp ht with h | h
  · rw [h]; exact ht0
  · obtain ⟨q, hq, rfl⟩ := List.mem_map.mp h
    exact (hrest q hq).2

theorem parse_record (c : scanLine) (sc : Scanner) (h : (scanLine.Parse c sc).1 = none) :
    ∃ c1 : scanLine, c1.comment = [] ∧ c1.segments = some [] ∧
      (scanLine.Parse c sc).2.1 = c1.classify (strings.TrimSpace c1.lineBuffer) := by
  obtain ⟨hok, hp⟩ := parse_ok c sc h
  have hline := readLoop_ok_line sc.pending
    { c with comment := [], segments := some [], lineBuffer := [] } sc hok
  have hframe := readLoop_frame sc.pending
    { c with comment := [], segments := some [], lineBuffer := [] } sc
  refine ⟨(scanLine.readLogicalLine { c with comment := [], segments := some [] } sc).2.1,
    hframe.2.1, hframe.2.2, ?_⟩
  rw [hp]
  show scanLine.classify _ _ = scanLine.classify _ _
  congr 1

theorem classify_fields (c : scanLine) (l : GoString) :
    (c.classify l).atEOF = c.atEOF ∧ (c.classify l).lineBuffer = c.lineBuffer ∧
      (c.classify l).isComment = strings.HasPrefix l ['#'] ∧
      (c.classify l).comment =
        (if strings.HasPrefix l ['#'] then
          strings.TrimSpace (strings.TrimPrefix l ['#']) else c.comment) ∧
      (c.classify l).segments =
        (if strings.HasPrefix l ['#'] then c.segments else some (segmentRegex.Split l)) := by
  unfold scanLine.classify
  by_cases h : strings.HasPrefix l ['#'] = true <;> simp [h]

theorem mem_of_mem_trimSpace (s : GoString) (x : Char) (h : x ∈ strings.TrimSpace s) : x ∈ s := by
  have h1 : strings.TrimSpace s <+: s.dropWhile unicode.IsSpace := List.rdropWhile_prefix _ _
  have h2 : s.dropWhile unicode.IsSpace <:+ s := List.dropWhile_suffix _
  exact h2.subset (h1.subset h)

theorem readLoop_no_failure (p : List ScanStep) :
    ∀ (c : scanLine) (sc : Scanner), sc.err = none → (∀ st ∈ p, st.readErr = none) →
      (scanLine.readLoop c sc p).1.2 = none := by
  induction p with
  | nil => intro c sc _ _; simp [scanLine.readLoop]
  | cons st rest ih =>
    intro c sc herr hall
    have hst : st.readErr = none := hall st (by simp)
    have hd : (sc.deliver st rest).err = none := by
      simp [Scanner.deliver, Scanner.setErr, herr, hst]
    simp only [scanLine.readLoop]
    rw [if_neg (by simp [hd])]
    split
    · rfl
    · exact ih _ _ hd (fun s hs => hall s (by simp [hs]))

theorem readLoop_atEOF (p : List ScanStep) :
    ∀ (c : scanLine) (sc : Scanner), c.atEOF = true →
      (scanLine.readLoop c sc p).2.1.atEOF = true := by
  induction p with
  | nil => intro c sc _; simp [scanLine.readLoop]
  | cons st rest ih =>
    intro c sc h
    simp only [scanLine.readLoop]
    split
    · exact h
    · split
      · exact h
      · exact ih _ _ h

theorem parse_atEOF (c : scanLine) (sc : Scanner) (h : c.atEOF = true) :
    (scanLine.Parse c sc).2.1.atEOF = true := by
  have hr := readLoop_atEOF sc.pending
    { c with comment := [], segments := some [], lineBuffer := [] } sc h
  have hP : scanLine.Parse c sc =
      match scanLine.readLoop { c with comment := [], segments := some [], lineBuffer := [] } sc
        sc.pending with
      | ((l, err), c1, sc1) =>
        if err ≠ none then (err, c1, sc1) else (none, c1.classify l, sc1) := rfl
  rw [hP]
  generalize scanLine.readLoop { c with comment := [], segments := some [], lineBuffer := [] } sc
    sc.pending = r at hr
  obtain ⟨⟨l, e⟩, c1, sc1⟩ := r
  simp only at hr
  cases e with
  | none => simp [(classify_fields c1 l).1, hr]
  | some e => simp [hr]

theorem readLoop_indep (p : List ScanStep) :
    ∀ (c1 c2 : scanLine) (sc : Scanner), c1.lineBuffer = c2.lineBuffer →
      (scanLine.readLoop c1 sc p).1 = (scanLine.readLoop c2 sc p).1 ∧
      (scanLine.readLoop c1 sc p).2.2 = (scanLine.readLoop c2 sc p).2.2 ∧
      (scanLine.readLoop c1 sc p).2.1.lineBuffer = (scanLine.readLoop c2 sc p).2.1.lineBuffer := by
  induction p with
  | nil => intro c1 c2 sc h; simp [scanLine.readLoop, h]
  | cons st rest ih =>
    intro c1 c2 sc h
    simp only [scanLine.readLoop]
    split
    · exact ⟨rfl, rfl, h⟩
    · split
      · simp [h]
      · exact ih _ _ _ (by simp [h])

theorem parse_indep (c1 c2 : scanLine) (sc : Scanner) :
    (scanLine.Parse c1 sc).1 = (scanLine.Parse c2 sc).1 ∧
      (scanLine.Parse c1 sc).2.2 = (scanLine.Parse c2 sc).2.2 ∧
      ((scanLine.Parse c1 sc).1 = none →
        (scanLine.Parse c1 sc).2.1.lineBuffer = (scanLine.Parse c2 sc).2.1.lineBuffer ∧
        (scanLine.Parse c1 sc).2.1.isComment = (scanLine.Parse c2 sc).2.1.isComment ∧
        (scanLine.Parse c1 sc).2.1.comment = (scanLine.Parse c2 sc).2.1.comment ∧
        (scanLine.Parse c1 sc).2.1.segments = (scanLine.Parse c2 sc).2.1.segments) := by
  have hi := readLoop_indep sc.pending
    { c1 with comment := [], segments := some [], lineBuffer := [] }
    { c2 with comment := [], segments := some [], lineBuffer := [] } sc rfl
  have hf1 := readLoop_frame sc.pending
    { c1 with comment := [], segments := some [], lineBuffer := [] } sc
  have hf2 := readLoop_frame sc.pending
    { c2 with comment := [], segments := some [], lineBuffer := [] } sc
  have hP : ∀ c : scanLine, scanLine.Parse c sc =
      match scanLine.readLoop { c with comment := [], segments := some [], lineBuffer := [] } sc
        sc.pending with
      | ((l, err), c1, sc1) =>
        if err ≠ none then (err, c1, sc1) else (none, c1.classify l, sc1) := fun _ => rfl
  rw [hP c1, hP c2]
  generalize scanLine.readLoop { c1 with comment := [], segments := some [], lineBuffer := [] }
    sc sc.pending = r1 at hi hf1
  generalize scanLine.readLoop { c2 with comment := [], segments := some [], lineBuffer := [] }
    sc sc.pending = r2 at hi hf2
  obtain ⟨⟨l1, e1⟩, d1, s1⟩ := r1
  obtain ⟨⟨l2, e2⟩, d2, s2⟩ := r2
  simp only [Prod.mk.injEq] at hi hf1 hf2
  obtain ⟨⟨rfl, rfl⟩, rfl, hb⟩ := hi
  cases e1 with
  | some e => simp
  | none =>
    simp only [ne_eq, not_true_eq_false, if_false, true_and, forall_true_left]
    obtain ⟨_, hb1, hc1, hm1, hs1⟩ := classify_fields d1 l1
    obtain ⟨_, hb2, hc2, hm2, hs2⟩ := classify_fields d2 l1
    refine ⟨?_, ?_, ?_, ?_⟩
    · rw [hb1, hb2, hb]
    · rw [hc1, hc2]
    · rw [hm1, hm2, hf1.2.1, hf2.2.1]
    · rw [hs1, hs2, hf1.2.2, hf2.2.2]

theorem classify_congr (c1 c2 : scanLine) (l : GoString) (h1 : c1.atEOF = c2.atEOF)
    (h2 : c1.lineBuffer = c2.lineBuffer) (h3 : c1.comment = c2.comment)
    (h4 : c1.segments = c2.segments) : c1.classify l = c2.classify l := by
  cases c1; cases c2
  simp only at h1 h2 h3 h4
  subst h1 h2 h3 h4
  unfold scanLine.classify
  by_cases h : strings.HasPrefix l ['#'] = true <;> simp [h]

theorem parseTimes_lines (k : Nat) :
    ∀ (lines : List GoString) (c : scanLine) (sc : Scanner), sc.err = none →
      sc.pending = okSteps lines → (∀ l ∈ lines, l.getLast? ≠ some '\\') → k ≤ lines.length →
      (scanLine.parseTimes k c sc).1 = none ∧ (scanLine.parseTimes k c sc).2.2.err = none ∧
        (scanLine.parseTimes k c sc).2.2.pending = okSteps (lines.drop k) ∧
        (scanLine.parseTimes k c sc).2.1.atEOF = c.atEOF := by
  induction k with
  | zero => intro lines c sc herr hp _ _; simp [scanLine.parseTimes, herr, hp]
  | succ k ih =>
    intro lines c sc herr hp hall hk
    obtain ⟨_, he, hpend, hat⟩ := ih lines c sc herr hp hall (by omega)
    have hlt : k < lines.length := by omega
    have hdrop : lines.drop k = lines[k] :: lines.drop (k + 1) := List.drop_eq_getElem_cons hlt
    have hl : lines[k].getLast? ≠ some '\\' := hall _ (List.getElem_mem hlt)
    have hpend2 : (scanLine.parseTimes k c sc).2.2.pending =
        okSteps (([] : List GoString).map (fun p => p ++ marker) ++ [lines[k]]) ++
          okSteps (lines.drop (k + 1)) := by
      rw [hpend, hdrop]; simp only [okSteps, List.map_nil, List.nil_append, List.map_cons]; rfl
    have hC := parse_of_read (scanLine.parseTimes k c sc).2.1 (scanLine.parseTimes k c sc).2.2
      _ _ _ (read_join _ _ [] lines[k] _ he hl hpend2)
    simp only [scanLine.parseTimes]
    rw [hC]
    refine ⟨rfl, he, rfl, ?_⟩
    rw [(classify_fields _ _).1]
    exact hat

theorem decode_total (text : GoString) : ∃ r, decodeCoordReference text = some r := by
  obtain ⟨r0, tl, hs⟩ := split_ne_nil text '/'
  by_cases h0 : isIntegerLiteral r0 = true
  · by_cases h1 : slotOk tl[0]? = true
    · by_cases h2 : slotOk tl[1]? = true
      · exact ⟨_, decode_ok text r0 tl hs h0 h1 h2⟩
      · cases tl with
        | nil => simp [slotOk] at h2
        | cons r1 tl2 =>
          cases tl2 with
          | nil => simp [slotOk] at h2
          | cons r2 tl3 =>
            cases r2 with
            | nil => simp [slotOk] at h2
            | cons a b =>
              have hl : isIntegerLiteral (a :: b) = false := by simpa [slotOk] using h2
              exact ⟨_, decode_err2 text r0 r1 (a :: b) tl3 hs h0 h1 (by simp) hl⟩
    · cases tl with
      | nil => simp [slotOk] at h1
      | cons r1 tl2 =>
        cases r1 with
        | nil => simp [slotOk] at h1
        | cons a b =>
          have hl : isIntegerLiteral (a :: b) = false := by simpa [slotOk] using h1
          exact ⟨_, decode_err1 text r0 (a :: b) tl2 hs h0 (by simp) hl⟩
  · exact ⟨_, decode_err0 text r0 tl hs (by simpa using h0)⟩

theorem stringParam_in_range (c : scanLine) (i : Int) (h0 : 0 ≤ i) (h1 : i < c.ParamCount) :
    ∃ s, c.StringParam i = some s := by
  unfold scanLine.ParamCount at h1
  simp only at h1
  cases hs : c.segments with
  | none =>
    simp [scanLine.lenSegments, hs] at h1
    omega
  | some l =>
    have hlen : c.lenSegments = l.length := by simp [scanLine.lenSegments, hs]
    rw [hlen] at h1
    have hlt : (i + 1).toNat < l.length := by
      split at h1 <;> omega
    refine ⟨l[(i + 1).toNat], ?_⟩
    have hneg : ¬ (i + 1 < 0) := by omega
    simp [scanLine.StringParam, scanLine.segmentAt, hs, hneg, List.getElem?_eq_getElem hlt]

/-! ## The claims -/

/-- C1. Logical-line joining: when the scanner (no error recorded) delivers
N physical lines of which the first N-1 are `p ++ "\\"` and the N-th, `last`,
does not end with the backslash, one `Parse` call succeeds, consumes exactly
those N lines (the steps `rest` remain) and classifies the logical line
`TrimSpace (p1 ++ ... ++ last)`: the markers are stripped and nothing is
inserted at the joins. For N = 1 (`ps = []`) this is `TrimSpace last`. -/
theorem C1_logical_line_joining (c : scanLine) (sc : Scanner) (ps : List GoString)
    (last : GoString) (rest : List ScanStep) (herr : sc.err = none)
    (hlast : last.getLast? ≠ some '\\')
    (hpend : sc.pending = okSteps (ps.map (fun p => p ++ marker) ++ [last]) ++ rest) :
    scanLine.Parse c sc =
      (none,
        scanLine.classify
          { c with comment := [], segments := some [], lineBuffer := ps.flatten ++ last }
          (strings.TrimSpace (ps.flatten ++ last)),
        { sc with pending := rest, text := last }) :=
  parse_of_read c sc _ _ _ (read_join _ sc ps last rest herr hlast hpend)

theorem C1_logical_line_joining_witness :
    scanLine.Parse NewScanLine (Scanner.ofLines ["v 1 \\".toList, "2 3".toList, "x".toList]) =
      (none,
        { atEOF := false, lineBuffer := "v 1 2 3".toList, isComment := false, comment := [],
          segments := some ["v".toList, "1".toList, "2".toList, "3".toList] },
        { pending := okSteps ["x".toList], finalErr := none, text := "2 3".toList,
          err := none }) :=
  C1_logical_line_joining NewScanLine
    (Scanner.ofLines ["v 1 \\".toList, "2 3".toList, "x".toList])
    ["v 1 ".toList] "2 3".toList (okSteps ["x".toList]) rfl (by decide) rfl

/-- C2. Tokenization of a command line: for tokens `t0 .. tn` (non-empty,
without whitespace, `t0` not starting with `#`, `tn` not ending with the
backslash), separated by non-empty runs of spaces and tabs, with optional
whitespace before and after, `Parse` of that physical line succeeds with
`IsCommand t0`, `IsCommand x` false for every other `x`, `ParamCount () = n`
and `StringParam i = t(i+1)` for every `i < n`. -/
theorem C2_command_tokenization (c : scanLine) (sc : Scanner) (lead trail t0 : GoString)
    (rest : List (GoString × GoString)) (more : List ScanStep)
    (herr : sc.err = none)
    (hpend : sc.pending = okSteps [lead ++ (joinTokens t0 rest ++ trail)] ++ more)
    (hlead : ∀ r ∈ lead, unicode.IsSpace r = true)
    (htrail : ∀ r ∈ trail, unicode.IsSpace r = true)
    (ht0 : t0 ≠ [] ∧ ∀ r ∈ t0, unicode.IsSpace r = false)
    (hrest : ∀ q ∈ rest, (q.1 ≠ [] ∧ ∀ r ∈ q.1, r = ' ' ∨ r = '\t') ∧
      (q.2 ≠ [] ∧ ∀ r ∈ q.2, unicode.IsSpace r = false))
    (hhash : t0.head? ≠ some '#')
    (hmark : ∀ tn, (t0 :: rest.map Prod.snd).getLast? = some tn → tn.getLast? ≠ some '\\') :
    (scanLine.Parse c sc).1 = none ∧
      (scanLine.Parse c sc).2.1.IsCommand t0 = true ∧
      (∀ x, x ≠ t0 → (scanLine.Parse c sc).2.1.IsCommand x = false) ∧
      (scanLine.Parse c sc).2.1.ParamCount = rest.length ∧
      ∀ (i : Nat) (h : i < rest.length),
        (scanLine.Parse c sc).2.1.StringParam i = some (rest.get ⟨i, h⟩).2 := by
  obtain ⟨hl, htrim⟩ := line_tokens lead trail t0 rest hlead htrail ht0 hrest hmark
  have hread := read_join { c with comment := [], segments := some [] } sc [] _ more herr hl
    (by simpa using hpend)
  simp only [List.flatten_nil, List.nil_append, htrim] at hread
  rw [parse_of_read c sc _ _ _ hread, classify_tokens _ t0 rest ht0 hrest hhash]
  refine ⟨rfl, ?_, ?_, ?_, ?_⟩
  · simp [scanLine.IsCommand, scanLine.lenSegments, scanLine.segmentAt]
  · intro x hx
    simp [scanLine.IsCommand, scanLine.lenSegments, scanLine.segmentAt, Ne.symm hx]
  · simp [scanLine.ParamCount, scanLine.lenSegments]
  · intro i h
    have h0 : ¬ ((i : Int) + 1 < 0) := by omega
    have h1 : ((i : Int) + 1).toNat = i + 1 := by omega
    simp [scanLine.StringParam, scanLine.segmentAt, h0, h1, List.getElem?_eq_getElem h]

theorem C2_command_tokenization_witness :
    (scanLine.Parse NewScanLine (Scanner.ofLines [" v 1.0 \t2.0  3.0 ".toList])).1 = none ∧
      (scanLine.Parse NewScanLine
        (Scanner.ofLines [" v 1.0 \t2.0  3.0 ".toList])).2.1.IsCommand "v".toList = true ∧
      (∀ x, x ≠ "v".toList → (scanLine.Parse NewScanLine
        (Scanner.ofLines [" v 1.0 \t2.0  3.0 ".toList])).2.1.IsCommand x = false) ∧
      (scanLine.Parse NewScanLine
        (Scanner.ofLines [" v 1.0 \t2.0  3.0 ".toList])).2.1.ParamCount = 3 ∧
      ∀ (i : Nat) (h : i < 3),
        (scanLine.Parse NewScanLine
          (Scanner.ofLines [" v 1.0 \t2.0  3.0 ".toList])).2.1.StringParam i =
          some ([(" ".toList, "1.0".toList), (" \t".toList, "2.0".toList),
            ("  ".toList, "3.0".toList)].get ⟨i, h⟩).2 :=
  C2_command_tokenization NewScanLine (Scanner.ofLines [" v 1.0 \t2.0  3.0 ".toList])
    " ".toList " ".toList "v".toList
    [(" ".toList, "1.0".toList), (" \t".toList, "2.0".toList), ("  ".toList, "3.0".toList)]
    [] rfl rfl (by decide) (by decide) (by decide) (by decide) (by decide) (by decide)

/-- C3. Comment classification looks at the joined line only: after a
successful `Parse` the logical line that was read is the trimmed content of
the line buffer (the join of the physical lines consumed), `IsComment ()`
holds exactly when that line begins with `#`, and a comment record is no
command: `IsCommand name` is false for every name and `ParamCount ()` is 0. -/
theorem C3_comment_classification (c : scanLine) (sc : Scanner)
    (h : (scanLine.Parse c sc).1 = none) :
    (scanLine.readLogicalLine { c with comment := [], segments := some [] } sc).1 =
        (strings.TrimSpace (scanLine.Parse c sc).2.1.lineBuffer, none) ∧
      ((scanLine.Parse c sc).2.1.IsComment = true ↔
        (strings.TrimSpace (scanLine.Parse c sc).2.1.lineBuffer).head? = some '#') ∧
      ((scanLine.Parse c sc).2.1.IsComment = true →
        (∀ name, (scanLine.Parse c sc).2.1.IsCommand name = false) ∧
          (scanLine.Parse c sc).2.1.ParamCount = 0) := by
  obtain ⟨hok, hp⟩ := parse_ok c sc h
  have hline := readLoop_ok_line sc.pending
    { c with comment := [], segments := some [], lineBuffer := [] } sc hok
  have hframe := readLoop_frame sc.pending
    { c with comment := [], segments := some [], lineBuffer := [] } sc
  rw [hp]
  generalize hr : scanLine.readLogicalLine { c with comment := [], segments := some [] } sc = r
    at hok hline hframe hp ⊢
  have hr2 : scanLine.readLoop { c with comment := [], segments := some [], lineBuffer := [] }
      sc sc.pending = r := hr
  rw [hr2] at hline hframe
  obtain ⟨⟨l, e⟩, c1, sc1⟩ := r
  simp only at hok hline hframe ⊢
  subst hok
  obtain ⟨hb, _, hc⟩ := classify_lineBuffer c1 l
  refine ⟨?_, ?_, ?_⟩
  · rw [hb, hline]
  · rw [scanLine.IsComment, hc, hb, ← hline, hasPrefix_hash_iff]
  · intro hcm
    rw [scanLine.IsComment, hc] at hcm
    have hseg : (c1.classify l).segments = some [] := by
      simp [scanLine.classify, hcm, hframe.2.2]
    simp [scanLine.IsCommand, scanLine.ParamCount, scanLine.lenSegments, hseg]

theorem C3_comment_classification_witness :
    (scanLine.Parse NewScanLine
        (Scanner.ofLines ["  \\".toList, "# a \\".toList, "#b".toList])).1 = none ∧
      (scanLine.Parse NewScanLine
        (Scanner.ofLines ["  \\".toList, "# a \\".toList, "#b".toList])).2.1.lineBuffer =
        "  # a #b".toList ∧
      (scanLine.Parse NewScanLine
        (Scanner.ofLines ["  \\".toList, "# a \\".toList, "#b".toList])).2.1.IsComment = true ∧
      ((∀ name, (scanLine.Parse NewScanLine
        (Scanner.ofLines ["  \\".toList, "# a \\".toList, "#b".toList])).2.1.IsCommand name =
          false) ∧
        (scanLine.Parse NewScanLine
          (Scanner.ofLines ["  \\".toList, "# a \\".toList, "#b".toList])).2.1.ParamCount = 0) :=
  ⟨by decide, by decide, by decide,
    (C3_comment_classification NewScanLine
      (Scanner.ofLines ["  \\".toList, "# a \\".toList, "#b".toList]) (by decide)).2.2
      (by decide)⟩

/-- C4, evaluated where the code departs from it: for the physical line
`"  # hello"` (whitespace before the `#`) `Parse` records the comment body
`"hello"` in the field `comment`, but `GetComment ()`, which slices the
untrimmed line buffer, returns `"# hello"`. -/
theorem C4_getComment_after_leading_space :
    (scanLine.Parse NewScanLine (Scanner.ofLines ["  # hello".toList])).1 = none ∧
      (scanLine.Parse NewScanLine (Scanner.ofLines ["  # hello".toList])).2.1.IsComment = true ∧
      (scanLine.Parse NewScanLine (Scanner.ofLines ["  # hello".toList])).2.1.comment =
        "hello".toList ∧
      (scanLine.Parse NewScanLine (Scanner.ofLines ["  # hello".toList])).2.1.GetComment =
        some "# hello".toList := by
  decide

/-- C5, evaluated where the code departs from it: after `Parse` of an empty
physical line (more input following) the segments are the one empty token
`[""]`, so `IsBlank ()` is false and `IsCommand ""` is true. -/
theorem C5_blank_line_not_blank :
    (scanLine.Parse NewScanLine (Scanner.ofLines [[], "v 1".toList])).1 = none ∧
      (scanLine.Parse NewScanLine (Scanner.ofLines [[], "v 1".toList])).2.1.IsAtEOF = false ∧
      (scanLine.Parse NewScanLine (Scanner.ofLines [[], "v 1".toList])).2.1.segments =
        some [[]] ∧
      (scanLine.Parse NewScanLine (Scanner.ofLines [[], "v 1".toList])).2.1.IsBlank = false ∧
      (scanLine.Parse NewScanLine (Scanner.ofLines [[], "v 1".toList])).2.1.IsCommand [] = true ∧
      (scanLine.Parse NewScanLine (Scanner.ofLines [[], "v 1".toList])).2.1.IsComment = false := by
  decide

/-- C6. Coordinate references of the four well-formed shapes: for integer
literals `v`, `t`, `n` (optional sign, decimal digits, a value of Go `int`)
`CoordReferenceParam` succeeds and returns, for the parameter text `v`,
`v/t`, `v//n` and `v/t/n`, the vertex index with the texture-coordinate and
normal flags and indices set exactly for the slots written. -/
theorem C6_coord_reference_shapes (v t n : GoString) (hv : isIntegerLiteral v = true)
    (ht : isIntegerLiteral t = true) (hn : isIntegerLiteral n = true) (c : scanLine) (i : Int) :
    (c.StringParam i = some v →
      c.CoordReferenceParam i = some (⟨false, false, literalValue v, 0, 0⟩, none)) ∧
    (c.StringParam i = some (v ++ '/' :: t) →
      c.CoordReferenceParam i =
        some (⟨true, false, literalValue v, literalValue t, 0⟩, none)) ∧
    (c.StringParam i = some (v ++ '/' :: '/' :: n) →
      c.CoordReferenceParam i =
        some (⟨false, true, literalValue v, 0, literalValue n⟩, none)) ∧
    (c.StringParam i = some (v ++ '/' :: (t ++ '/' :: n)) →
      c.CoordReferenceParam i =
        some (⟨true, true, literalValue v, literalValue t, literalValue n⟩, none)) := by
  have sv := literal_no_slash v hv
  have st := literal_no_slash t ht
  have sn := literal_no_slash n hn
  obtain ⟨ct, t2, rfl⟩ : ∃ a b, t = a :: b := by
    cases t with
    | nil => simp [isIntegerLiteral, literalDigits] at ht
    | cons a b => exact ⟨a, b, rfl⟩
  obtain ⟨cn, n2, rfl⟩ : ∃ a b, n = a :: b := by
    cases n with
    | nil => simp [isIntegerLiteral, literalDigits] at hn
    | cons a b => exact ⟨a, b, rfl⟩
  refine ⟨fun h => ?_, fun h => ?_, fun h => ?_, fun h => ?_⟩
  · rw [coordParam_eq c i _ h, decode_ok _ v [] (split_no_sep v _ sv) hv rfl rfl]
    rfl
  · rw [coordParam_eq c i _ h, decode_ok _ v [ct :: t2]
      (by rw [split_append_sep v _ _ sv, split_no_sep _ _ st]) hv ht rfl]
    rfl
  · rw [coordParam_eq c i _ h, decode_ok _ v [[], cn :: n2]
      (by rw [split_append_sep v _ _ sv,
        show ('/' :: cn :: n2) = [] ++ '/' :: (cn :: n2) from rfl,
        split_append_sep [] _ _ (by simp), split_no_sep _ _ sn]) hv rfl hn]
    rfl
  · rw [coordParam_eq c i _ h, decode_ok _ v [ct :: t2, cn :: n2]
      (by rw [split_append_sep v _ _ sv, split_append_sep _ _ _ st, split_no_sep _ _ sn])
      hv ht hn]
    rfl

theorem C6_coord_reference_shapes_witness :
    (scanLine.Parse NewScanLine
        (Scanner.ofLines ["f 1 2/1/1 4//5 -3/7".toList])).2.1.CoordReferenceParam 0 =
      some (⟨false, false, 1, 0, 0⟩, none) ∧
    (scanLine.Parse NewScanLine
        (Scanner.ofLines ["f 1 2/1/1 4//5 -3/7".toList])).2.1.CoordReferenceParam 1 =
      some (⟨true, true, 2, 1, 1⟩, none) ∧
    (scanLine.Parse NewScanLine
        (Scanner.ofLines ["f 1 2/1/1 4//5 -3/7".toList])).2.1.CoordReferenceParam 2 =
      some (⟨false, true, 4, 0, 5⟩, none) ∧
    (scanLine.Parse NewScanLine
        (Scanner.ofLines ["f 1 2/1/1 4//5 -3/7".toList])).2.1.CoordReferenceParam 3 =
      some (⟨true, false, -3, 7, 0⟩, none) :=
  ⟨(C6_coord_reference_shapes "1".toList "1".toList "1".toList (by decide) (by decide)
      (by decide) _ 0).1 rfl,
    (C6_coord_reference_shapes "2".toList "1".toList "1".toList (by decide) (by decide)
      (by decide) _ 1).2.2.2 rfl,
    (C6_coord_reference_shapes "4".toList "1".toList "5".toList (by decide) (by decide)
      (by decide) _ 2).2.2.1 rfl,
    (C6_coord_reference_shapes "-3".toList "7".toList "5".toList (by decide) (by decide)
      (by decide) _ 3).2.1 rfl⟩

/-- C7 as stated fails: the parameter `1/2/3/4` splits into four slots, so it
is outside the grammar, yet `CoordReferenceParam` succeeds on it with the
indices 1, 2, 3. -/
theorem C7_fourth_slot_accepted :
    (scanLine.Parse NewScanLine (Scanner.ofLines ["f 1/2/3/4".toList])).2.1.StringParam 0 =
      some "1/2/3/4".toList ∧
    (scanLine.Parse NewScanLine (Scanner.ofLines ["f 1/2/3/4".toList])).2.1.CoordReferenceParam 0 =
      some (⟨true, true, 1, 2, 3⟩, none) ∧
    strings.Split "1/2/3/4".toList '/' = ["1".toList, "2".toList, "3".toList, "4".toList] ∧
    coordrefGrammar "1/2/3/4".toList = false := by
  decide

/-- C7, amended: `CoordReferenceParam` returns success if and only if slot 0
of the split on `/` is an integer and slots 1 and 2, where present, are each
empty or an integer, whatever slots follow the third; on every other text it
returns an error with the zero-valued reference. -/
theorem C7_accepted_language (c : scanLine) (i : Int) (text : GoString)
    (hparam : c.StringParam i = some text) :
    ((∃ r, c.CoordReferenceParam i = some (r, none)) ↔ coordrefLooseGrammar text = true) ∧
    (coordrefLooseGrammar text = false →
      ∃ e, c.CoordReferenceParam i = some (⟨false, false, 0, 0, 0⟩, some e)) := by
  rw [coordParam_eq c i text hparam]
  obtain ⟨r0, tl, hs⟩ := split_ne_nil text '/'
  have hg : coordrefLooseGrammar text =
      (isIntegerLiteral r0 && slotOk tl[0]? && slotOk tl[1]?) := by
    simp [coordrefLooseGrammar, hs]
  have key : coordrefLooseGrammar text = false →
      ∃ e, decodeCoordReference text = some (⟨false, false, 0, 0, 0⟩, some e) := by
    intro hf
    rw [hg] at hf
    by_cases h0 : isIntegerLiteral r0 = true
    · by_cases h1 : slotOk tl[0]? = true
      · have h2 : slotOk tl[1]? = false := by simpa [h0, h1] using hf
        cases tl with
        | nil => simp [slotOk] at h2
        | cons r1 tl2 =>
          cases tl2 with
          | nil => simp [slotOk] at h2
          | cons r2 tl3 =>
            cases r2 with
            | nil => simp [slotOk] at h2
            | cons a b =>
              have hl : isIntegerLiteral (a :: b) = false := by simpa [slotOk] using h2
              obtain ⟨_, e, _, he, _⟩ := atoi_error_of_not_literal _ hl
              exact ⟨e, by rw [decode_err2 text r0 r1 (a :: b) tl3 hs h0 h1 (by simp) hl, he]⟩
      · cases tl with
        | nil => simp [slotOk] at h1
        | cons r1 tl2 =>
          cases r1 with
          | nil => simp [slotOk] at h1
          | cons a b =>
            have hl : isIntegerLiteral (a :: b) = false := by simpa [slotOk] using h1
            obtain ⟨_, e, _, he, _⟩ := atoi_error_of_not_literal _ hl
            exact ⟨e, by rw [decode_err1 text r0 (a :: b) tl2 hs h0 (by simp) hl, he]⟩
    · have hl : isIntegerLiteral r0 = false := by simpa using h0
      obtain ⟨_, e, _, he, _⟩ := atoi_error_of_not_literal _ hl
      exact ⟨e, by rw [decode_err0 text r0 tl hs hl, he]⟩
  refine ⟨⟨?_, ?_⟩, key⟩
  · rintro ⟨r, hr⟩
    by_contra hne
    obtain ⟨e, he⟩ := key (by simpa using hne)
    rw [he] at hr
    simp at hr
  · intro hgt
    rw [hg] at hgt
    simp only [Bool.and_eq_true] at hgt
    exact ⟨_, decode_ok text r0 tl hs hgt.1.1 hgt.1.2 hgt.2⟩

theorem C7_accepted_language_witness :
    ((∃ r, (scanLine.Parse NewScanLine
        (Scanner.ofLines ["f 1/2/3/4 5/x".toList])).2.1.CoordReferenceParam 0 = some (r, none)) ↔
      coordrefLooseGrammar "1/2/3/4".toList = true) ∧
    (coordrefLooseGrammar "1/2/3/4".toList = false →
      ∃ e, (scanLine.Parse NewScanLine
        (Scanner.ofLines ["f 1/2/3/4 5/x".toList])).2.1.CoordReferenceParam 0 =
          some (⟨false, false, 0, 0, 0⟩, some e)) :=
  C7_accepted_language _ 0 "1/2/3/4".toList (by decide)

/-- C8. Malformed index slots are rejected with no partial result: with the
parameter text split on `/` into slot 0 (`r0`) and the later slots (`tl`), a
slot 0 that is no integer (the empty slot included), else a non-empty slot 1
that is no integer, else a non-empty slot 2 that is no integer, makes
`CoordReferenceParam` return the zero-valued `ScanCoordReference` together
with the `Atoi` error of that slot, the first malformed one. -/
theorem C8_malformed_slots (c : scanLine) (i : Int) (text r0 : GoString) (tl : List GoString)
    (hparam : c.StringParam i = some text) (hs : strings.Split text '/' = r0 :: tl) :
    (isIntegerLiteral r0 = false →
      ∃ k, c.CoordReferenceParam i =
        some (⟨false, false, 0, 0, 0⟩, some (.numError r0 k))) ∧
    (isIntegerLiteral r0 = true → ∀ r1, tl[0]? = some r1 → r1 ≠ [] →
      isIntegerLiteral r1 = false →
      ∃ k, c.CoordReferenceParam i =
        some (⟨false, false, 0, 0, 0⟩, some (.numError r1 k))) ∧
    (isIntegerLiteral r0 = true → slotOk tl[0]? = true → ∀ r2, tl[1]? = some r2 → r2 ≠ [] →
      isIntegerLiteral r2 = false →
      ∃ k, c.CoordReferenceParam i =
        some (⟨false, false, 0, 0, 0⟩, some (.numError r2 k))) := by
  rw [coordParam_eq c i text hparam]
  refine ⟨fun h0 => ?_, fun h0 r1 hr1 hne h1 => ?_, fun h0 hok r2 hr2 hne h2 => ?_⟩
  · obtain ⟨_, e, _, he, k, hk⟩ := atoi_error_of_not_literal _ h0
    exact ⟨k, by rw [decode_err0 text r0 tl hs h0, he, hk]⟩
  · cases tl with
    | nil => simp at hr1
    | cons a tl2 =>
      simp at hr1; subst hr1
      obtain ⟨_, e, _, he, k, hk⟩ := atoi_error_of_not_literal _ h1
      exact ⟨k, by rw [decode_err1 text r0 a tl2 hs h0 hne h1, he, hk]⟩
  · cases tl with
    | nil => simp at hr2
    | cons a tl2 =>
      cases tl2 with
      | nil => simp at hr2
      | cons b tl3 =>
        simp at hr2; subst hr2
        obtain ⟨_, e, _, he, k, hk⟩ := atoi_error_of_not_literal _ h2
        exact ⟨k, by rw [decode_err2 text r0 a b tl3 hs h0 (by simpa using hok) hne h2, he, hk]⟩

theorem C8_malformed_slots_witness :
    (∃ k, (scanLine.Parse NewScanLine
        (Scanner.ofLines ["f x/1/1 1/y/z 1//z".toList])).2.1.CoordReferenceParam 0 =
      some (⟨false, false, 0, 0, 0⟩, some (.numError "x".toList k))) ∧
    (∃ k, (scanLine.Parse NewScanLine
        (Scanner.ofLines ["f x/1/1 1/y/z 1//z".toList])).2.1.CoordReferenceParam 1 =
      some (⟨false, false, 0, 0, 0⟩, some (.numError "y".toList k))) ∧
    (∃ k, (scanLine.Parse NewScanLine
        (Scanner.ofLines ["f x/1/1 1/y/z 1//z".toList])).2.1.CoordReferenceParam 2 =
      some (⟨false, false, 0, 0, 0⟩, some (.numError "z".toList k))) :=
  ⟨(C8_malformed_slots _ 0 "x/1/1".toList "x".toList ["1".toList, "1".toList]
      (by decide) (by decide)).1 (by decide),
    (C8_malformed_slots _ 1 "1/y/z".toList "1".toList ["y".toList, "z".toList]
      (by decide) (by decide)).2.1 (by decide) "y".toList (by decide) (by decide) (by decide),
    (C8_malformed_slots _ 2 "1//z".toList "1".toList [[], "z".toList]
      (by decide) (by decide)).2.2 (by decide) (by decide) "z".toList (by decide) (by decide)
      (by decide)⟩

/-- C9, evaluated where the code departs from it: when `Scan ()` returns
false because the reader failed (on the very first read, or after a continued
line was accumulated), `Parse` returns a nil error and flags end-of-stream,
while `scanner.Err ()` holds the read error. -/
theorem C9_read_failure_reported_as_eof :
    ((scanLine.Parse NewScanLine
        { pending := [], finalErr := some (.readError 1), text := [], err := none }).1 = none ∧
      (scanLine.Parse NewScanLine
        { pending := [], finalErr := some (.readError 1), text := [],
          err := none }).2.1.IsAtEOF = true ∧
      (scanLine.Parse NewScanLine
        { pending := [], finalErr := some (.readError 1), text := [],
          err := none }).2.2.err = some (.readError 1)) ∧
    ((scanLine.Parse NewScanLine
        { pending := [⟨"v 1 \\".toList, none⟩], finalErr := some (.readError 1), text := [],
          err := none }).1 = none ∧
      (scanLine.Parse NewScanLine
        { pending := [⟨"v 1 \\".toList, none⟩], finalErr := some (.readError 1), text := [],
          err := none }).2.1.IsCommand "v".toList = true ∧
      (scanLine.Parse NewScanLine
        { pending := [⟨"v 1 \\".toList, none⟩], finalErr := some (.readError 1), text := [],
          err := none }).2.1.IsAtEOF = true) := by
  decide

/-- C10. End-of-stream reporting: when the scanner delivers `k >= 0` lines,
each ending with the continuation marker, and is then exhausted without
failure, `Parse` returns no error, `IsAtEOF ()` is true afterwards and the
line classified is the trimmed concatenation of the lines without their
markers. Conversely a `Parse` that reads a terminating line, on a `scanLine`
whose `IsAtEOF ()` was false, leaves it false. -/
theorem C10_end_of_stream :
    (∀ (c : scanLine) (sc : Scanner) (ps : List GoString),
      sc.err = none → sc.finalErr = none →
      sc.pending = okSteps (ps.map (fun p => p ++ marker)) →
      (scanLine.Parse c sc).1 = none ∧ (scanLine.Parse c sc).2.1.IsAtEOF = true ∧
        (scanLine.Parse c sc).2.1 =
          scanLine.classify
            { c with atEOF := true, comment := [], segments := some [], lineBuffer := ps.flatten }
            (strings.TrimSpace ps.flatten)) ∧
    (∀ (c : scanLine) (sc : Scanner) (ps : List GoString) (last : GoString)
        (rest : List ScanStep),
      sc.err = none → last.getLast? ≠ some '\\' →
      sc.pending = okSteps (ps.map (fun p => p ++ marker) ++ [last]) ++ rest →
      c.IsAtEOF = false → (scanLine.Parse c sc).2.1.IsAtEOF = false) := by
  constructor
  · intro c sc ps herr _ hpend
    obtain ⟨h1, h2⟩ := parse_exhaust c sc ps herr hpend
    refine ⟨h1, ?_, h2⟩
    rw [h2, scanLine.IsAtEOF, (classify_lineBuffer _ _).2.1]
  · intro c sc ps last rest herr hlast hpend hc
    rw [parse_of_read c sc _ _ _ (read_join _ sc ps last rest herr hlast hpend)]
    simp only [scanLine.IsAtEOF] at hc ⊢
    rw [(classify_lineBuffer _ _).2.1]
    exact hc

theorem C10_end_of_stream_witness :
    ((scanLine.Parse NewScanLine (Scanner.ofLines [])).1 = none ∧
      (scanLine.Parse NewScanLine (Scanner.ofLines [])).2.1.IsAtEOF = true ∧
      (scanLine.Parse NewScanLine (Scanner.ofLines [])).2.1 =
        { atEOF := true, lineBuffer := [], isComment := false, comment := [],
          segments := some [[]] }) ∧
    ((scanLine.Parse NewScanLine (Scanner.ofLines ["o a\\".toList, "b \\".toList])).1 = none ∧
      (scanLine.Parse NewScanLine
        (Scanner.ofLines ["o a\\".toList, "b \\".toList])).2.1.IsAtEOF = true ∧
      (scanLine.Parse NewScanLine (Scanner.ofLines ["o a\\".toList, "b \\".toList])).2.1 =
        { atEOF := true, lineBuffer := "o ab ".toList, isComment := false, comment := [],
          segments := some ["o".toList, "ab".toList] }) ∧
    (scanLine.Parse NewScanLine
      (Scanner.ofLines ["o a\\".toList, "b".toList])).2.1.IsAtEOF = false :=
  ⟨C10_end_of_stream.1 NewScanLine (Scanner.ofLines []) [] rfl rfl rfl,
    C10_end_of_stream.1 NewScanLine (Scanner.ofLines ["o a\\".toList, "b \\".toList])
      ["o a".toList, "b ".toList] rfl rfl rfl,
    C10_end_of_stream.2 NewScanLine (Scanner.ofLines ["o a\\".toList, "b".toList])
      ["o a".toList] "b".toList [] rfl (by decide) rfl rfl⟩

/-- C11 as stated fails: when the stream ends after the continued line
`"v 1 \\"`, the successful `Parse` leaves both `IsAtEOF ()` and
`IsCommand "v"` true, two of the four shapes at once. -/
theorem C11_eof_record_is_command :
    (scanLine.Parse NewScanLine (Scanner.ofLines ["v 1 \\".toList])).1 = none ∧
      (scanLine.Parse NewScanLine (Scanner.ofLines ["v 1 \\".toList])).2.1.IsAtEOF = true ∧
      (scanLine.Parse NewScanLine (Scanner.ofLines ["v 1 \\".toList])).2.1.IsCommand
        "v".toList = true := by
  decide

/-- C11, amended: after every successful `Parse` at most one of `IsBlank ()`,
`IsComment ()` and `IsCommand name` (for some name) holds, and when the
logical line is not empty one of `IsComment ()` and `IsCommand name` for some
name does hold. `IsAtEOF ()` is left out: it is a flag of its own and may
accompany a comment or a command. -/
theorem C11_record_shapes (c : scanLine) (sc : Scanner) (h : (scanLine.Parse c sc).1 = none) :
    ¬ ((scanLine.Parse c sc).2.1.IsBlank = true ∧ (scanLine.Parse c sc).2.1.IsComment = true) ∧
    (∀ name, ¬ ((scanLine.Parse c sc).2.1.IsBlank = true ∧
      (scanLine.Parse c sc).2.1.IsCommand name = true)) ∧
    (∀ name, ¬ ((scanLine.Parse c sc).2.1.IsComment = true ∧
      (scanLine.Parse c sc).2.1.IsCommand name = true)) ∧
    (strings.TrimSpace (scanLine.Parse c sc).2.1.lineBuffer ≠ [] →
      ((scanLine.Parse c sc).2.1.IsComment = true ∨
        ∃ name, (scanLine.Parse c sc).2.1.IsCommand name = true)) := by
  obtain ⟨c1, hcom, hseg, hrec⟩ := parse_record c sc h
  obtain ⟨_, hbuf, hic, _, hsegs⟩ := classify_fields c1 (strings.TrimSpace c1.lineBuffer)
  rw [hrec]
  rw [hseg] at hsegs
  have hnone : (c1.classify (strings.TrimSpace c1.lineBuffer)).segments ≠ none := by
    rw [hsegs]; split <;> simp
  have hblank : (c1.classify (strings.TrimSpace c1.lineBuffer)).IsBlank = false := by
    simp [scanLine.IsBlank, hnone]
  refine ⟨by simp [hblank], fun name => by simp [hblank], ?_, ?_⟩
  · intro name ⟨h1, h2⟩
    rw [scanLine.IsComment, hic] at h1
    rw [h1] at hsegs
    simp [scanLine.IsCommand, scanLine.lenSegments, hsegs] at h2
  · intro hne
    rw [hbuf] at hne
    by_cases hp : strings.HasPrefix (strings.TrimSpace c1.lineBuffer) ['#'] = true
    · left; rw [scanLine.IsComment, hic, hp]
    · right
      obtain ⟨_, ⟨t0, ts, hts⟩, _⟩ := split_trimmed c1.lineBuffer hne
      rw [if_neg hp, hts] at hsegs
      exact ⟨t0, by simp [scanLine.IsCommand, scanLine.lenSegments, scanLine.segmentAt, hsegs]⟩

theorem C11_record_shapes_witness :
    (∀ name, ¬ ((scanLine.Parse NewScanLine
        (Scanner.ofLines ["# c".toList, "v 1".toList])).2.1.IsComment = true ∧
      (scanLine.Parse NewScanLine
        (Scanner.ofLines ["# c".toList, "v 1".toList])).2.1.IsCommand name = true)) ∧
    ((scanLine.Parse NewScanLine
        (Scanner.ofLines ["# c".toList, "v 1".toList])).2.1.IsComment = true ∨
      ∃ name, (scanLine.Parse NewScanLine
        (Scanner.ofLines ["# c".toList, "v 1".toList])).2.1.IsCommand name = true) :=
  ⟨(C11_record_shapes NewScanLine (Scanner.ofLines ["# c".toList, "v 1".toList])
      (by decide)).2.2.1,
    (C11_record_shapes NewScanLine (Scanner.ofLines ["# c".toList, "v 1".toList])
      (by decide)).2.2.2 (by decide)⟩

/-- C12, evaluated where the code departs from it, with the part that holds:
for a physical line of whitespace only the recorded token list is `[""]`,
one empty token, which is also the command name; for every logical line that
is not empty no recorded token is the empty string. -/
theorem C12_empty_token_on_blank_line :
    ((scanLine.Parse NewScanLine (Scanner.ofLines [" \t".toList, "v 1".toList])).1 = none ∧
      (scanLine.Parse NewScanLine (Scanner.ofLines [" \t".toList, "v 1".toList])).2.1.segments =
        some [[]] ∧
      (scanLine.Parse NewScanLine (Scanner.ofLines [" \t".toList, "v 1".toList])).2.1.IsCommand
        [] = true) ∧
    (∀ (c : scanLine) (sc : Scanner), (scanLine.Parse c sc).1 = none →
      strings.TrimSpace (scanLine.Parse c sc).2.1.lineBuffer ≠ [] →
      ∀ segs, (scanLine.Parse c sc).2.1.segments = some segs → [] ∉ segs) := by
  refine ⟨by decide, ?_⟩
  intro c sc h hne segs hs
  obtain ⟨c1, hcom, hseg, hrec⟩ := parse_record c sc h
  obtain ⟨_, hbuf, hic, _, hsegs⟩ := classify_fields c1 (strings.TrimSpace c1.lineBuffer)
  rw [hrec] at hne hs
  rw [hbuf] at hne
  rw [hsegs, hseg] at hs
  by_cases hp : strings.HasPrefix (strings.TrimSpace c1.lineBuffer) ['#'] = true
  · rw [if_pos hp] at hs
    simp only [Option.some.injEq] at hs
    rw [← hs]; simp
  · rw [if_neg hp] at hs
    simp only [Option.some.injEq] at hs
    rw [← hs]
    intro hmem
    exact ((split_trimmed c1.lineBuffer hne).2.2 [] hmem).1 rfl

/-- C13 as stated fails: the physical line `"x\\ "` (a backslash followed by a
space) does not end with the marker, so it is kept whole and trimmed: the
logical line `"x\\"` ends with the backslash. -/
theorem C13_marker_before_trailing_space :
    (scanLine.readLogicalLine NewScanLine (Scanner.ofLines ["x\\ ".toList, "y".toList])).1 =
        ("x\\".toList, none) ∧
      ("x\\".toList).getLast? = some '\\' := by
  decide

/-- C13, amended: when the only backslashes of the physical lines read are the
single continuation markers that end the continued lines, the logical line
produced by `readLogicalLine` contains no backslash and so does not end with
one; this holds whether the logical line is closed by a terminating line or
by the end of the stream. -/
theorem C13_no_marker_left (c : scanLine) (sc : Scanner) (ps : List GoString)
    (herr : sc.err = none) (hps : ∀ p ∈ ps, '\\' ∉ p) :
    (∀ (last : GoString) (rest : List ScanStep), '\\' ∉ last →
      sc.pending = okSteps (ps.map (fun p => p ++ marker) ++ [last]) ++ rest →
      (scanLine.readLogicalLine c sc).1.2 = none ∧
        '\\' ∉ (scanLine.readLogicalLine c sc).1.1 ∧
        (scanLine.readLogicalLine c sc).1.1.getLast? ≠ some '\\') ∧
    (sc.pending = okSteps (ps.map (fun p => p ++ marker)) →
      (scanLine.readLogicalLine c sc).1.2 = none ∧
        '\\' ∉ (scanLine.readLogicalLine c sc).1.1 ∧
        (scanLine.readLogicalLine c sc).1.1.getLast? ≠ some '\\') := by
  have hflat : '\\' ∉ ps.flatten := by
    intro hm
    obtain ⟨p, hp, hx⟩ := List.mem_flatten.mp hm
    exact hps p hp hx
  constructor
  · intro last rest hlast hpend
    have hl : last.getLast? ≠ some '\\' :=
      fun hg => hlast (List.mem_of_getLast?_eq_some hg)
    rw [read_join c sc ps last rest herr hl hpend]
    have hnot : '\\' ∉ strings.TrimSpace (ps.flatten ++ last) := by
      intro hm
      rcases List.mem_append.mp (mem_of_mem_trimSpace _ _ hm) with h1 | h1
      · exact hflat h1
      · exact hlast h1
    exact ⟨rfl, hnot, fun hg => hnot (List.mem_of_getLast?_eq_some hg)⟩
  · intro hpend
    have hex := (readLoop_exhaust ps { c with lineBuffer := [] } sc herr).1
    have hrd : (scanLine.readLogicalLine c sc).1 =
        (strings.TrimSpace ([] ++ ps.flatten), none) := by
      unfold scanLine.readLogicalLine
      rw [hpend]
      exact hex
    rw [hrd]
    have hnot : '\\' ∉ strings.TrimSpace ([] ++ ps.flatten) := by
      intro hm
      exact hflat (by simpa using mem_of_mem_trimSpace _ _ hm)
    exact ⟨rfl, hnot, fun hg => hnot (List.mem_of_getLast?_eq_some hg)⟩

theorem C13_no_marker_left_witness :
    '\\' ∉ (scanLine.readLogicalLine NewScanLine
        (Scanner.ofLines ["v 1 \\".toList, " 2\\".toList, " 3 ".toList, "x".toList])).1.1 ∧
      (scanLine.readLogicalLine NewScanLine
        (Scanner.ofLines ["v 1 \\".toList, " 2\\".toList, " 3 ".toList, "x".toList])).1.1 =
        "v 1  2 3".toList :=
  ⟨((C13_no_marker_left NewScanLine
      (Scanner.ofLines ["v 1 \\".toList, " 2\\".toList, " 3 ".toList, "x".toList])
      ["v 1 ".toList, " 2".toList] rfl (by decide)).1 " 3 ".toList (okSteps ["x".toList])
      (by decide) rfl).2.1, by decide⟩

/-- C15. `ParamCount`: after every successful `Parse`, `ParamCount ()` is the
number of whitespace-delimited tokens of the logical line minus one for a
command (a line that is not empty and no comment), 0 for a comment, 0 for a
blank line, and never negative. The tokens are counted by `words`, written
independently of the code. -/
theorem C15_param_count (c : scanLine) (sc : Scanner) (h : (scanLine.Parse c sc).1 = none) :
    ((scanLine.Parse c sc).2.1.IsComment = false →
      strings.TrimSpace (scanLine.Parse c sc).2.1.lineBuffer ≠ [] →
      (scanLine.Parse c sc).2.1.ParamCount =
        ((words (strings.TrimSpace (scanLine.Parse c sc).2.1.lineBuffer)).length : Int) - 1) ∧
    ((scanLine.Parse c sc).2.1.IsComment = true → (scanLine.Parse c sc).2.1.ParamCount = 0) ∧
    (strings.TrimSpace (scanLine.Parse c sc).2.1.lineBuffer = [] →
      (scanLine.Parse c sc).2.1.ParamCount = 0) ∧
    0 ≤ (scanLine.Parse c sc).2.1.ParamCount := by
  obtain ⟨c1, hcom, hseg, hrec⟩ := parse_record c sc h
  obtain ⟨_, hbuf, hic, _, hsegs⟩ := classify_fields c1 (strings.TrimSpace c1.lineBuffer)
  rw [hrec, hbuf]
  rw [hseg] at hsegs
  refine ⟨?_, ?_, ?_, ?_⟩
  · intro hnc hne
    rw [scanLine.IsComment, hic] at hnc
    obtain ⟨hw, ⟨t0, ts, hts⟩, _⟩ := split_trimmed c1.lineBuffer hne
    rw [hnc] at hsegs
    simp only [Bool.false_eq_true, if_false] at hsegs
    rw [← hw, hts]
    rw [hts] at hsegs
    simp [scanLine.ParamCount, scanLine.lenSegments, hsegs]
  · intro hcm
    rw [scanLine.IsComment, hic] at hcm
    rw [hcm] at hsegs
    simp [scanLine.ParamCount, scanLine.lenSegments, hsegs]
  · intro he
    rw [he] at hsegs
    have : (c1.classify []).segments = some [[]] := by
      simpa [strings.HasPrefix, segmentRegex.Split] using hsegs
    rw [he]
    simp [scanLine.ParamCount, scanLine.lenSegments, this]
  · unfold scanLine.ParamCount
    simp only
    split <;> omega

theorem C15_param_count_witness :
    (scanLine.Parse NewScanLine (Scanner.ofLines ["f 1  2\t3 ".toList])).2.1.ParamCount =
        ((words (strings.TrimSpace (scanLine.Parse NewScanLine
          (Scanner.ofLines ["f 1  2\t3 ".toList])).2.1.lineBuffer)).length : Int) - 1 ∧
      (scanLine.Parse NewScanLine (Scanner.ofLines ["f 1  2\t3 ".toList])).2.1.ParamCount = 3 :=
  ⟨(C15_param_count NewScanLine (Scanner.ofLines ["f 1  2\t3 ".toList]) (by decide)).1
      (by decide) (by decide), by decide⟩

/-- C16. The end-of-stream flag is permanent: once `IsAtEOF ()` is true it is
true after every later sequence of `Parse` calls, with whatever scanners, and
accessor calls on the same `scanLine`. -/
theorem C16_eof_flag_permanent (c : scanLine) (calls : List Call) (h : c.IsAtEOF = true) :
    (c.afterCalls calls).IsAtEOF = true := by
  induction calls generalizing c with
  | nil => exact h
  | cons call calls ih =>
    simp only [scanLine.afterCalls, List.foldl_cons]
    apply ih
    cases call with
    | parse sc => exact parse_atEOF c sc h
    | _ => exact h

theorem C16_eof_flag_permanent_witness :
    (scanLine.Parse NewScanLine (Scanner.ofLines [])).2.1.IsAtEOF = true ∧
      ((scanLine.Parse NewScanLine (Scanner.ofLines [])).2.1.afterCalls
        [.isBlank, .parse (Scanner.ofLines ["v 1".toList, "# c".toList]), .getComment,
          .parse (Scanner.mk [ScanStep.mk "x".toList (some (.readError 1))] none [] none),
          .stringParam 7]).IsAtEOF = true :=
  ⟨by decide, C16_eof_flag_permanent _ _ (by decide)⟩

/-- C17, evaluated where the code departs from it: over the lines `"v 1 2 3"`,
`"# a comment"`, `""` the first `Parse` gives the command `v` with the
tokens 1, 2, 3, the second a comment with body `"a comment"`, the fourth
end-of-stream without error, none of the first three at end-of-stream; but
after the third `IsBlank ()` is false and `IsCommand ""` is true. -/
theorem C17_three_line_stream :
    ((scanLine.parseTimes 1 NewScanLine
        (Scanner.ofLines ["v 1 2 3".toList, "# a comment".toList, []])).1 = none ∧
      (scanLine.parseTimes 1 NewScanLine
        (Scanner.ofLines ["v 1 2 3".toList, "# a comment".toList, []])).2.1.IsCommand
          "v".toList = true ∧
      (scanLine.parseTimes 1 NewScanLine
        (Scanner.ofLines ["v 1 2 3".toList, "# a comment".toList, []])).2.1.segments =
          some ["v".toList, "1".toList, "2".toList, "3".toList] ∧
      (scanLine.parseTimes 1 NewScanLine
        (Scanner.ofLines ["v 1 2 3".toList, "# a comment".toList, []])).2.1.IsAtEOF = false) ∧
    ((scanLine.parseTimes 2 NewScanLine
        (Scanner.ofLines ["v 1 2 3".toList, "# a comment".toList, []])).1 = none ∧
      (scanLine.parseTimes 2 NewScanLine
        (Scanner.ofLines ["v 1 2 3".toList, "# a comment".toList, []])).2.1.IsComment = true ∧
      (scanLine.parseTimes 2 NewScanLine
        (Scanner.ofLines ["v 1 2 3".toList, "# a comment".toList, []])).2.1.GetComment =
          some "a comment".toList ∧
      (scanLine.parseTimes 2 NewScanLine
        (Scanner.ofLines ["v 1 2 3".toList, "# a comment".toList, []])).2.1.IsAtEOF = false) ∧
    ((scanLine.parseTimes 3 NewScanLine
        (Scanner.ofLines ["v 1 2 3".toList, "# a comment".toList, []])).1 = none ∧
      (scanLine.parseTimes 3 NewScanLine
        (Scanner.ofLines ["v 1 2 3".toList, "# a comment".toList, []])).2.1.IsBlank = false ∧
      (scanLine.parseTimes 3 NewScanLine
        (Scanner.ofLines ["v 1 2 3".toList, "# a comment".toList, []])).2.1.IsCommand [] = true ∧
      (scanLine.parseTimes 3 NewScanLine
        (Scanner.ofLines ["v 1 2 3".toList, "# a comment".toList, []])).2.1.IsAtEOF = false) ∧
    ((scanLine.parseTimes 4 NewScanLine
        (Scanner.ofLines ["v 1 2 3".toList, "# a comment".toList, []])).1 = none ∧
      (scanLine.parseTimes 4 NewScanLine
        (Scanner.ofLines ["v 1 2 3".toList, "# a comment".toList, []])).2.1.IsAtEOF = true) := by
  decide

/-- C18. No state leakage between records: from any two `scanLine` states and
the same scanner, `Parse` returns the same error and, when it succeeds, the
same `IsComment ()`, `GetComment ()`, `IsCommand name`, `ParamCount ()` and
`StringParam i`; and over a stream of lines without continuation the k-th
`Parse` succeeds and leaves exactly the record a fresh `scanLine` gets from
the k-th line alone. -/
theorem C18_no_state_leakage :
    (∀ (c1 c2 : scanLine) (sc : Scanner),
      (scanLine.Parse c1 sc).1 = (scanLine.Parse c2 sc).1 ∧
      ((scanLine.Parse c1 sc).1 = none →
        (scanLine.Parse c1 sc).2.1.IsComment = (scanLine.Parse c2 sc).2.1.IsComment ∧
        (scanLine.Parse c1 sc).2.1.GetComment = (scanLine.Parse c2 sc).2.1.GetComment ∧
        (∀ name, (scanLine.Parse c1 sc).2.1.IsCommand name =
          (scanLine.Parse c2 sc).2.1.IsCommand name) ∧
        (scanLine.Parse c1 sc).2.1.ParamCount = (scanLine.Parse c2 sc).2.1.ParamCount ∧
        (∀ i, (scanLine.Parse c1 sc).2.1.StringParam i =
          (scanLine.Parse c2 sc).2.1.StringParam i))) ∧
    (∀ (lines : List GoString) (k : Nat) (hk : k < lines.length),
      (∀ l ∈ lines, l.getLast? ≠ some '\\') →
      (scanLine.parseTimes (k + 1) NewScanLine (Scanner.ofLines lines)).1 = none ∧
        (scanLine.parseTimes (k + 1) NewScanLine (Scanner.ofLines lines)).2.1 =
          (scanLine.Parse NewScanLine (Scanner.ofLines [lines.get ⟨k, hk⟩])).2.1) := by
  constructor
  · intro c1 c2 sc
    obtain ⟨he, _, hf⟩ := parse_indep c1 c2 sc
    refine ⟨he, fun hok => ?_⟩
    obtain ⟨hb, hc, _, hs⟩ := hf hok
    refine ⟨hc, ?_, ?_, ?_, ?_⟩
    · simp [scanLine.GetComment, hb]
    · intro name; simp [scanLine.IsCommand, scanLine.lenSegments, scanLine.segmentAt, hs]
    · simp [scanLine.ParamCount, scanLine.lenSegments, hs]
    · intro i; simp [scanLine.StringParam, scanLine.segmentAt, hs]
  · intro lines k hk hall
    obtain ⟨_, he, hpend, hat⟩ := parseTimes_lines k lines NewScanLine (Scanner.ofLines lines)
      rfl rfl hall (by omega)
    have hdrop : lines.drop k = lines[k] :: lines.drop (k + 1) := List.drop_eq_getElem_cons hk
    have hl : lines[k].getLast? ≠ some '\\' := hall _ (List.getElem_mem hk)
    have hpend2 : (scanLine.parseTimes k NewScanLine (Scanner.ofLines lines)).2.2.pending =
        okSteps (([] : List GoString).map (fun p => p ++ marker) ++ [lines[k]]) ++
          okSteps (lines.drop (k + 1)) := by
      rw [hpend, hdrop]; simp only [okSteps, List.map_nil, List.nil_append, List.map_cons]; rfl
    have hC := parse_of_read _ _ _ _ _ (read_join
      { (scanLine.parseTimes k NewScanLine (Scanner.ofLines lines)).2.1 with
        comment := [], segments := some [] } _ [] lines[k] _ he hl hpend2)
    have hF := parse_of_read _ _ _ _ _ (read_join
      { NewScanLine with comment := [], segments := some [] } (Scanner.ofLines [lines[k]]) []
      lines[k] [] rfl hl rfl)
    simp only [scanLine.parseTimes, List.get_eq_getElem]
    rw [hC, hF]
    exact ⟨rfl, classify_congr _ _ _ hat rfl rfl rfl⟩

theorem C18_no_state_leakage_witness :
    (scanLine.Parse NewScanLine (Scanner.ofLines ["f 1 2".toList])).2.1.segments =
        (scanLine.Parse
          { atEOF := true, lineBuffer := "# old".toList, isComment := true,
            comment := "old".toList, segments := none }
          (Scanner.ofLines ["f 1 2".toList])).2.1.segments ∧
      (scanLine.parseTimes 2 NewScanLine
        (Scanner.ofLines ["# c".toList, "f 1 2".toList, "v 3".toList])).2.1 =
        (scanLine.Parse NewScanLine (Scanner.ofLines ["f 1 2".toList])).2.1 :=
  ⟨by decide,
    (C18_no_state_leakage.2 ["# c".toList, "f 1 2".toList, "v 3".toList] 1 (by decide)
      (by decide)).2⟩

/-- C19. Classification never fails on content: when the scanner has no error
recorded and delivers its lines without a read error, `Parse` returns a nil
error, whatever the text of the lines. -/
theorem C19_no_content_error (c : scanLine) (sc : Scanner) (herr : sc.err = none)
    (hall : ∀ st ∈ sc.pending, st.readErr = none) : (scanLine.Parse c sc).1 = none := by
  have h := readLoop_no_failure sc.pending
    { c with comment := [], segments := some [], lineBuffer := [] } sc herr hall
  have hP : scanLine.Parse c sc =
      match scanLine.readLoop { c with comment := [], segments := some [], lineBuffer := [] } sc
        sc.pending with
      | ((l, err), c1, sc1) =>
        if err ≠ none then (err, c1, sc1) else (none, c1.classify l, sc1) := rfl
  rw [hP]
  generalize scanLine.readLoop { c with comment := [], segments := some [], lineBuffer := [] } sc
    sc.pending = r at h
  obtain ⟨⟨l, e⟩, c1, sc1⟩ := r
  simp only at h
  subst h
  simp

theorem C19_no_content_error_witness :
    (scanLine.Parse NewScanLine
      (Scanner.ofLines ["zz 1e400 #/\\ \\x //3 abc\\".toList, "\\\\ # / ".toList])).1 = none :=
  C19_no_content_error NewScanLine
    (Scanner.ofLines ["zz 1e400 #/\\ \\x //3 abc\\".toList, "\\\\ # / ".toList]) rfl (by decide)

/-- C20. Accessors are index-safe within the advertised bounds: after a
successful `Parse`, for every `0 <= i < ParamCount ()` the calls
`StringParam i`, `CoordReferenceParam i` and `FloatParam i` (the latter for
any float parser) make no out-of-range access; the split of any text on `/`
has a slot 0; and when `IsComment ()` is true the slice taken by
`GetComment ()` is in range. -/
theorem C20_accessors_in_range (c : scanLine) (sc : Scanner)
    (h : (scanLine.Parse c sc).1 = none) :
    (∀ i : Int, 0 ≤ i → i < (scanLine.Parse c sc).2.1.ParamCount →
      (∃ s, (scanLine.Parse c sc).2.1.StringParam i = some s) ∧
      (∃ r, (scanLine.Parse c sc).2.1.CoordReferenceParam i = some r) ∧
      (∀ (F64 F32 : Type) (parseFloat : GoString → F64 × Option GoError)
          (toFloat32 : F64 → F32) (zero : F32),
        ∃ r, (scanLine.Parse c sc).2.1.FloatParam parseFloat toFloat32 zero i = some r)) ∧
    (∀ text : GoString, ∃ r0 tl, strings.Split text '/' = r0 :: tl) ∧
    ((scanLine.Parse c sc).2.1.IsComment = true →
      ∃ s, (scanLine.Parse c sc).2.1.GetComment = some s) := by
  refine ⟨?_, fun text => split_ne_nil text '/', ?_⟩
  · intro i h0 h1
    obtain ⟨s, hs⟩ := stringParam_in_range _ i h0 h1
    refine ⟨⟨s, hs⟩, ?_, ?_⟩
    · rw [coordParam_eq _ i s hs]; exact decode_total s
    · intro F64 F32 parseFloat toFloat32 zero
      unfold scanLine.FloatParam
      rw [hs]
      simp only
      rcases parseFloat s with ⟨v, _ | e⟩
      · exact ⟨_, rfl⟩
      · exact ⟨_, rfl⟩
  · intro hcm
    obtain ⟨c1, _, _, hrec⟩ := parse_record c sc h
    obtain ⟨_, hbuf, hic, _, _⟩ := classify_fields c1 (strings.TrimSpace c1.lineBuffer)
    rw [hrec] at hcm ⊢
    rw [scanLine.IsComment, hic, hasPrefix_hash_iff] at hcm
    have hne : c1.lineBuffer ≠ [] := by
      intro he
      rw [he] at hcm
      simp [strings.TrimSpace] at hcm
    unfold scanLine.GetComment
    rw [hbuf]
    obtain ⟨a, b, hab⟩ := List.exists_cons_of_ne_nil hne
    rw [hab]
    exact ⟨_, rfl⟩

theorem C20_accessors_in_range_witness :
    (∃ s, (scanLine.Parse NewScanLine
        (Scanner.ofLines ["f 1/2 x".toList])).2.1.StringParam 1 = some s) ∧
      (∃ r, (scanLine.Parse NewScanLine
        (Scanner.ofLines ["f 1/2 x".toList])).2.1.CoordReferenceParam 1 = some r) :=
  ⟨((C20_accessors_in_range NewScanLine (Scanner.ofLines ["f 1/2 x".toList]) (by decide)).1 1
      (by decide) (by decide)).1,
    ((C20_accessors_in_range NewScanLine (Scanner.ofLines ["f 1/2 x".toList]) (by decide)).1 1
      (by decide) (by decide)).2.1⟩

end obj
